import Mathlib

/-!
Verification development for the causal-poset-discovery repository.

We give a shallow embedding of the core components — the Gumbel-Top-K
permutation-learning loss, the masked affine flow transform, the hard
permutation sampler, the phase-alternation controller, the trainer loop,
and SCM simulation / backward-edge counting — and prove the specified
properties about these embeddings.

Conventions: machine floats are modelled by exact rationals `ℚ`; the
transcendental float primitives (`exp`, `**`) are abstracted as function
parameters so that every theorem quantifies over them; Python exceptions
become `Except` errors; `float("inf")` becomes `⊤ : WithTop ℚ`.
-/

set_option maxRecDepth 10000

namespace OCD

/-! ## Trainer.get_temperature (src/ocd/training/trainer.py, lines 122-129) -/

/-- Python true division `a / b`, raising `ZeroDivisionError` when `b = 0`. -/
def pyDiv (a b : ℚ) : Except String ℚ :=
  if b = 0 then Except.error "ZeroDivisionError" else Except.ok (a / b)

/-- Embeds `self.true_epochs = self.max_epochs // (self.flow_frequency +
self.permutation_frequency) + 1` from `Trainer.train`; `//` is floor division,
which on naturals is `Nat.div`. -/
def trueEpochs (maxEpochs flowFrequency permutationFrequency : ℕ) : ℕ :=
  maxEpochs / (flowFrequency + permutationFrequency) + 1

/-- Embeds `Trainer.get_temperature`.  `pw` abstracts the float power
operator `**` (only reached after the division succeeds, exactly as in
Python evaluation order).  A scheduler name that matches no branch falls
off the end of the function, which in Python returns `None`; we return
`Except.ok none` for that case, and `Except.error` for `ZeroDivisionError`. -/
def getTemperature (pw : ℚ → ℚ → ℚ) (temperatureScheduler : String)
    (initialTemperature : ℚ) (te : ℕ) (epoch : ℕ) : Except String (Option ℚ) :=
  if temperatureScheduler = "constant" then Except.ok (some initialTemperature)
  else if temperatureScheduler = "linear" then
    match pyDiv (epoch : ℚ) ((te : ℚ) - 1) with
    | Except.error e => Except.error e
    | Except.ok r => Except.ok (some (initialTemperature * (1 - r)))
  else if temperatureScheduler = "exponential" then
    match pyDiv (epoch : ℚ) ((te : ℚ) - 1) with
    | Except.error e => Except.error e
    | Except.ok r => Except.ok (some (initialTemperature * pw (1 / 10) r))
  else Except.ok none

/-! ## Trainer.__init__ permutation-method dispatch (trainer.py, lines 71-97) -/

/-- Tags for the five permutation-learning module variants the Trainer can
instantiate. -/
inductive PermutationMethod where
  | contrastiveDivergence
  | gumbelTopK
  | straightThroughSinkhorn
  | softSort
  | softSinkhorn
deriving DecidableEq, Repr

/-- Python error value: the exception class name together with its message. -/
structure PyError where
  errClass : String
  message : String
deriving DecidableEq, Repr

/-- Verbatim message of the `ValueError` raised by `Trainer.__init__` when the
method name matches no branch. -/
def trainerDispatchErrorMessage : String :=
  "permutation_learning_config must be of type GumbelSinkhornStraightThroughConfig or ContrastiveDivergenceConfig"

/-- Embeds the `if method == ... elif ... else raise` chain of
`Trainer.__init__` selecting the permutation-learning module variant. -/
def trainerMethodDispatch (method : String) : Except PyError PermutationMethod :=
  if method = "contrastive-divergence" then Except.ok PermutationMethod.contrastiveDivergence
  else if method = "gumbel-top-k" then Except.ok PermutationMethod.gumbelTopK
  else if method = "straight-through-sinkhorn" then Except.ok PermutationMethod.straightThroughSinkhorn
  else if method = "soft-sort" then Except.ok PermutationMethod.softSort
  else if method = "soft-sinkhorn" then Except.ok PermutationMethod.softSinkhorn
  else Except.error { errClass := "ValueError", message := trainerDispatchErrorMessage }

/-- The five recognized method names, in source order. -/
def validMethodNames : List String :=
  ["contrastive-divergence", "gumbel-top-k", "straight-through-sinkhorn",
   "soft-sort", "soft-sinkhorn"]

/-- C10: `Trainer.get_temperature` is not total at the public interface: when
`true_epochs = 1` (equivalently `max_epochs < flow_frequency +
permutation_frequency`), the linear and exponential schedules divide by
`true_epochs - 1 = 0` and raise `ZeroDivisionError` (at every epoch, hence on
the first), and any scheduler name other than constant/linear/exponential
falls through and returns `None` instead of a number. -/
theorem getTemperature_not_total (pw : ℚ → ℚ → ℚ) (t : ℚ)
    (maxEpochs ff pf epoch te : ℕ) (nm : String) (hpos : 0 < ff + pf) :
    (trueEpochs maxEpochs ff pf = 1 ↔ maxEpochs < ff + pf) ∧
    getTemperature pw "linear" t 1 epoch = Except.error "ZeroDivisionError" ∧
    getTemperature pw "exponential" t 1 epoch = Except.error "ZeroDivisionError" ∧
    (nm ∉ (["constant", "linear", "exponential"] : List String) →
      getTemperature pw nm t te epoch = Except.ok none) := by
  refine ⟨?_, ?_, ?_, ?_⟩
  · have h1 : maxEpochs / (ff + pf) = 0 ↔ maxEpochs < ff + pf :=
      Nat.div_eq_zero_iff hpos
    unfold trueEpochs
    constructor
    · intro h
      exact h1.mp (by omega)
    · intro h
      have := h1.mpr h
      omega
  · simp [getTemperature, pyDiv]
  · simp [getTemperature, pyDiv]
  · intro hnm
    simp only [List.mem_cons, List.mem_singleton, not_or] at hnm
    obtain ⟨h1, h2, h3⟩ := hnm
    simp [getTemperature, h1, h2, h3]

/-- Witness for `getTemperature_not_total` at concrete inputs. -/
theorem getTemperature_not_total_witness :
    (trueEpochs 3 2 2 = 1 ↔ 3 < 2 + 2) ∧
    getTemperature (fun _ _ => 1) "linear" 1 1 0 = Except.error "ZeroDivisionError" ∧
    getTemperature (fun _ _ => 1) "exponential" 1 1 0 = Except.error "ZeroDivisionError" ∧
    ("cosine" ∉ (["constant", "linear", "exponential"] : List String) →
      getTemperature (fun _ _ => 1) "cosine" 1 7 0 = Except.ok none) :=
  getTemperature_not_total (fun _ _ => 1) 1 3 2 2 0 7 "cosine" (by decide)

/-- C8 counterexample: constructing with an unrecognized method name raises a
`ValueError` (not a `ConfigurationError`), and its message does not enumerate
the valid method names — none of the five names occurs in it. -/
theorem trainerMethodDispatch_counterexample :
    trainerMethodDispatch "tempered-transport" =
      Except.error { errClass := "ValueError", message := trainerDispatchErrorMessage } ∧
    "ValueError" ≠ "ConfigurationError" ∧
    ¬ ("contrastive-divergence".toList <:+: trainerDispatchErrorMessage.toList) ∧
    ¬ ("gumbel-top-k".toList <:+: trainerDispatchErrorMessage.toList) ∧
    ¬ ("straight-through-sinkhorn".toList <:+: trainerDispatchErrorMessage.toList) ∧
    ¬ ("soft-sort".toList <:+: trainerDispatchErrorMessage.toList) ∧
    ¬ ("soft-sinkhorn".toList <:+: trainerDispatchErrorMessage.toList) :=
  ⟨rfl, by decide, by decide, by decide, by decide, by decide, by decide⟩

/-- C8 amended: constructing the Trainer with a permutation-learning method
name other than the five recognized variants fails immediately with a
`ValueError` whose message references two config class types (it does not
enumerate the valid method names), and for each recognized name exactly the
corresponding module variant is instantiated. -/
theorem trainerMethodDispatch_spec (m : String) (hm : m ∉ validMethodNames) :
    trainerMethodDispatch m =
      Except.error { errClass := "ValueError", message := trainerDispatchErrorMessage } ∧
    trainerMethodDispatch "contrastive-divergence" =
      Except.ok PermutationMethod.contrastiveDivergence ∧
    trainerMethodDispatch "gumbel-top-k" = Except.ok PermutationMethod.gumbelTopK ∧
    trainerMethodDispatch "straight-through-sinkhorn" =
      Except.ok PermutationMethod.straightThroughSinkhorn ∧
    trainerMethodDispatch "soft-sort" = Except.ok PermutationMethod.softSort ∧
    trainerMethodDispatch "soft-sinkhorn" = Except.ok PermutationMethod.softSinkhorn := by
  simp only [validMethodNames, List.mem_cons, List.mem_singleton, not_or] at hm
  obtain ⟨h1, h2, h3, h4, h5⟩ := hm
  exact ⟨by simp [trainerMethodDispatch, h1, h2, h3, h4, h5], rfl, rfl, rfl, rfl, rfl⟩

/-- Witness for `trainerMethodDispatch_spec` at a concrete unrecognized name. -/
theorem trainerMethodDispatch_spec_witness :
    trainerMethodDispatch "plackett-luce" =
      Except.error { errClass := "ValueError", message := trainerDispatchErrorMessage } ∧
    trainerMethodDispatch "contrastive-divergence" =
      Except.ok PermutationMethod.contrastiveDivergence ∧
    trainerMethodDispatch "gumbel-top-k" = Except.ok PermutationMethod.gumbelTopK ∧
    trainerMethodDispatch "straight-through-sinkhorn" =
      Except.ok PermutationMethod.straightThroughSinkhorn ∧
    trainerMethodDispatch "soft-sort" = Except.ok PermutationMethod.softSort ∧
    trainerMethodDispatch "soft-sinkhorn" = Except.ok PermutationMethod.softSinkhorn :=
  trainerMethodDispatch_spec "plackett-luce" (by decide)

/-! ## Hard permutation sampler (src/ocd/training/permutation.py, lines 15-23)

The sampler calls `sample_gumbel_noise`, `hungarian` and `turn_into_matrix`
from `ocd/training/utils.py`, a module of this repository that is not under
`src/`; those three are modelled from the spec (section 4.4). -/

/-- Square rational matrix indexed by `Fin d`, modelling a `d×d` float tensor. -/
abbrev Mat (d : ℕ) := Fin d → Fin d → ℚ

/-- Elementwise tensor addition, as in `self.gamma + gumbel_noise`. -/
def matAdd {d : ℕ} (A B : Mat d) : Mat d := fun i j => A i j + B i j

/-- Keeps the better-scoring of two candidates, preferring `a` on ties. -/
def pickBetter {α : Type} (score : α → ℚ) (a b : α) : α :=
  if score a < score b then b else a

/-- Left fold of `pickBetter` starting from `a`: the first maximal element of
`a :: l`. -/
def argmaxAux {α : Type} (score : α → ℚ) (a : α) : List α → α
  | [] => a
  | x :: rest => argmaxAux score (pickBetter score a x) rest

/-- List argmax keeping the earliest element on ties. -/
def argmaxBy {α : Type} (score : α → ℚ) : List α → Option α
  | [] => none
  | a :: rest => some (argmaxAux score a rest)

theorem argmaxAux_mem {α : Type} (score : α → ℚ) (l : List α) (a : α) :
    argmaxAux score a l ∈ a :: l := by
  induction l generalizing a with
  | nil => simp [argmaxAux]
  | cons x rest ih =>
    have h := ih (pickBetter score a x)
    by_cases hc : score a < score x
    · rcases List.mem_cons.mp h with h1 | h1
      · simp only [argmaxAux]
        rw [h1]
        simp [pickBetter, hc]
      · simp [argmaxAux, List.mem_cons, h1]
    · rcases List.mem_cons.mp h with h1 | h1
      · simp only [argmaxAux]
        rw [h1]
        simp [pickBetter, hc]
      · simp [argmaxAux, List.mem_cons, h1]

theorem argmaxAux_le {α : Type} (score : α → ℚ) (l : List α) (a : α) :
    ∀ b ∈ a :: l, score b ≤ score (argmaxAux score a l) := by
  induction l generalizing a with
  | nil => intro b hb; simp at hb; simp [argmaxAux, hb]
  | cons x rest ih =>
    intro b hb
    have hax : score a ≤ score (pickBetter score a x) := by
      by_cases hc : score a < score x
      · simp only [pickBetter, if_pos hc]
        exact le_of_lt hc
      · simp [pickBetter, hc]
    have hxx : score x ≤ score (pickBetter score a x) := by
      by_cases hc : score a < score x
      · simp [pickBetter, hc]
      · simp only [pickBetter, if_neg hc]
        exact le_of_not_lt hc
    simp only [argmaxAux]
    have hmax : score (pickBetter score a x) ≤
        score (argmaxAux score (pickBetter score a x) rest) :=
      ih (pickBetter score a x) _ (List.mem_cons_self _ _)
    rcases List.mem_cons.mp hb with h1 | h1
    · rw [h1]; exact le_trans hax hmax
    · rcases List.mem_cons.mp h1 with h2 | h2
      · rw [h2]; exact le_trans hxx hmax
      · exact ih (pickBetter score a x) b (List.mem_cons_of_mem _ h2)

theorem argmaxBy_mem {α : Type} (score : α → ℚ) (l : List α) (a : α)
    (h : argmaxBy score l = some a) : a ∈ l := by
  cases l with
  | nil => simp [argmaxBy] at h
  | cons x rest =>
    simp only [argmaxBy, Option.some.injEq] at h
    exact h ▸ argmaxAux_mem score rest x

/-- Assignment encoded by a list `l` of column indices: position `i` is
assigned to column `l[i]` (out-of-range positions default to themselves,
which never happens for genuine permutation lists). -/
def assignmentOfList (d : ℕ) (l : List (Fin d)) : Fin d → Fin d :=
  fun i => l.getD i i

/-- All candidate assignments: one per permutation of `[0, ..., d-1]`. -/
def allAssignments (d : ℕ) : List (Fin d → Fin d) :=
  ((List.finRange d).permutations).map (assignmentOfList d)

/-- Total weight of the assignment `f` on the weight matrix `m`. -/
def assignmentScore {d : ℕ} (m : Mat d) (f : Fin d → Fin d) : ℚ :=
  ∑ i, m i (f i)

/-- Modelled from the spec: the `hungarian` linear-assignment solver of
`ocd/training/utils.py` (not under `src/`).  Per spec section 4.4 it "solves
the resulting linear-assignment (maximum-weight bipartite matching) problem to
obtain a guaranteed-valid permutation (every row/column assigned exactly
once)", ties broken by the solver's internal policy; we model it as the
maximum-weight assignment over all permutations, first-found on ties. -/
def hungarian {d : ℕ} (m : Mat d) : Fin d → Fin d :=
  (argmaxBy (assignmentScore m) (allAssignments d)).getD id

theorem assignmentOfList_bijective {d : ℕ} {l : List (Fin d)}
    (h : l ∈ (List.finRange d).permutations) :
    Function.Bijective (assignmentOfList d l) := by
  have hp : l.Perm (List.finRange d) := List.mem_permutations.mp h
  have hn : l.Nodup := hp.nodup_iff.mpr (List.nodup_finRange d)
  have hl : l.length = d := hp.length_eq.trans (List.length_finRange d)
  have hinj : Function.Injective (assignmentOfList d l) := by
    intro i j hij
    have hi : (i : ℕ) < l.length := by rw [hl]; exact i.isLt
    have hj : (j : ℕ) < l.length := by rw [hl]; exact j.isLt
    have hgi : assignmentOfList d l i = l.get ⟨i, hi⟩ := List.getD_eq_get l i hi
    have hgj : assignmentOfList d l j = l.get ⟨j, hj⟩ := List.getD_eq_get l j hj
    have : l.get ⟨i, hi⟩ = l.get ⟨j, hj⟩ := by rw [← hgi, ← hgj, hij]
    have := (List.Nodup.get_inj_iff hn).mp this
    exact Fin.ext (by simpa using congrArg Fin.val this)
  exact Finite.injective_iff_bijective.mp hinj

theorem hungarian_bijective {d : ℕ} (m : Mat d) : Function.Bijective (hungarian m) := by
  unfold hungarian
  cases harg : argmaxBy (assignmentScore m) (allAssignments d) with
  | none => simpa using Function.bijective_id
  | some f =>
    have hf := argmaxBy_mem _ _ _ harg
    simp only [allAssignments, List.mem_map] at hf
    obtain ⟨l, hl, rfl⟩ := hf
    simpa using assignmentOfList_bijective hl

/-- Modelled from the spec: `turn_into_matrix` of `ocd/training/utils.py` (not
under `src/`), which turns an assignment into the 0/1 permutation matrix whose
row `i` is one-hot at the assigned column `f i` (spec section 3: "a square 0/1
matrix, each row and column summing to exactly 1, representing a bijection
from positions to variable indices"). -/
def turnIntoMatrix {d : ℕ} (f : Fin d → Fin d) : Mat d :=
  fun i j => if f i = j then 1 else 0

/-- Embeds `PermutationLearningModule.sample_hard_permutations`: draw
`num_samples` i.i.d. Gumbel noise matrices (modelled as an ambient noise
stream `noise`), add each to `gamma`, solve the assignment problem, and stack
the resulting permutation matrices. -/
def sampleHardPermutations {d : ℕ} (gamma : Mat d) (noise : ℕ → Mat d)
    (numSamples : ℕ) : List (Mat d) :=
  (List.range numSamples).map (fun k => turnIntoMatrix (hungarian (matAdd gamma (noise k))))

/-- Valid permutation matrix: 0/1 entries, every row and column sums to 1. -/
def isPermutationMatrix {d : ℕ} (M : Mat d) : Prop :=
  (∀ i j, M i j = 0 ∨ M i j = 1) ∧ (∀ i, ∑ j, M i j = 1) ∧ (∀ j, ∑ i, M i j = 1)

theorem turnIntoMatrix_isPermutationMatrix {d : ℕ} (f : Fin d → Fin d)
    (hf : Function.Bijective f) : isPermutationMatrix (turnIntoMatrix f) := by
  refine ⟨fun i j => ?_, fun i => ?_, fun j => ?_⟩
  · by_cases h : f i = j <;> simp [turnIntoMatrix, h]
  · simp [turnIntoMatrix]
  · obtain ⟨i0, hi0⟩ := hf.surjective j
    have hcond : ∀ i : Fin d, f i = j ↔ i = i0 := fun i =>
      ⟨fun h => hf.injective (h.trans hi0.symm), fun h => h ▸ hi0⟩
    simp only [turnIntoMatrix, hcond]
    simp

/-- C4: every matrix returned by `sample_hard_permutations(n)` is a valid
permutation matrix — all entries in `{0,1}`, each row and each column sums to
exactly 1 — for every `gamma`, noise draw, and sample count. -/
theorem sampleHardPermutations_valid {d : ℕ} (gamma : Mat d) (noise : ℕ → Mat d)
    (n : ℕ) (M : Mat d) (hM : M ∈ sampleHardPermutations gamma noise n) :
    isPermutationMatrix M := by
  simp only [sampleHardPermutations, List.mem_map] at hM
  obtain ⟨k, _, rfl⟩ := hM
  exact turnIntoMatrix_isPermutationMatrix _ (hungarian_bijective _)

/-- Witness for `sampleHardPermutations_valid`: the single sample drawn for
`d = 2` with `gamma = 0` and zero noise is a valid permutation matrix. -/
theorem sampleHardPermutations_valid_witness :
    turnIntoMatrix (hungarian (matAdd (d := 2) (fun _ _ => 0) (fun _ _ => 0)))
        ∈ sampleHardPermutations (d := 2) (fun _ _ => 0) (fun _ => fun _ _ => 0) 1 ∧
    isPermutationMatrix
      (turnIntoMatrix (hungarian (matAdd (d := 2) (fun _ _ => 0) (fun _ _ => 0)))) :=
  have hmem : turnIntoMatrix (hungarian (matAdd (d := 2) (fun _ _ => 0) (fun _ _ => 0)))
      ∈ sampleHardPermutations (d := 2) (fun _ _ => 0) (fun _ => fun _ _ => 0) 1 := by
    simp [sampleHardPermutations, List.range_succ]
  ⟨hmem, sampleHardPermutations_valid (fun _ _ => 0) (fun _ => fun _ _ => 0) 1 _ hmem⟩

/-! ## GumbelTopK.loss (src/ocd/training/permutation.py, lines 34-55) -/

/-- Embeds `torch.sum(unique_perms.reshape(n, -1) * self.gamma.reshape(1, -1),
dim=-1)`: the Frobenius inner product `⟨P, gamma⟩` of a permutation matrix
with the affinity matrix. -/
def frobeniusScore {d : ℕ} (P gamma : Mat d) : ℚ :=
  ∑ i, ∑ j, P i j * gamma i j

/-- Vector dot product of two lists, as in `torch.exp(scores) @ losses`. -/
def dotList (a b : List ℚ) : ℚ :=
  ((a.zip b).map (fun p => p.1 * p.2)).sum

/-- Embeds `log_probs.reshape(n_unique, b_size).mean(axis=-1)`: row-major
chunking of the flat result into `n` rows of `bSize` entries, then per-row
mean. -/
def chunkMeans (bSize : ℕ) : ℕ → List ℚ → List ℚ
  | 0, _ => []
  | n + 1, l => ((l.take bSize).sum / (bSize : ℚ)) :: chunkMeans bSize n (l.drop bSize)

/-- Embeds the pairing of `unique_perms.repeat_interleave(b_size, dim=0)` with
`batch.repeat(n_unique, 1, 1)`: the list of (permutation, sample) pairs at
which `model.log_prob` is evaluated, in flat row-major order. -/
def gumbelEvalPairs {d : ℕ} (uniquePerms : List (Mat d)) (batch : List (Fin d → ℚ)) :
    List (Mat d × (Fin d → ℚ)) :=
  (uniquePerms.flatMap (fun P => List.replicate batch.length P)).zip
    ((List.replicate uniquePerms.length batch).flatten)

/-- Embeds `GumbelTopK.loss`: sample `num_samples` hard permutations,
deduplicate (`torch.unique(permutations, dim=0)`), score each unique
permutation against `gamma`, evaluate `model.log_prob` on every (unique
permutation, batch sample) pair in one flat batched call, reshape and average
to per-permutation losses, and return `exp(scores) @ losses /
exp(scores).sum()`.  `logProb` abstracts `model.log_prob` and `ex` abstracts
the float `torch.exp`. -/
def gumbelTopKLoss {d : ℕ} (logProb : Mat d → (Fin d → ℚ) → ℚ) (ex : ℚ → ℚ)
    (gamma : Mat d) (noise : ℕ → Mat d) (numSamples : ℕ)
    (batch : List (Fin d → ℚ)) : ℚ :=
  let permutations := sampleHardPermutations gamma noise numSamples
  let uniquePerms := permutations.dedup
  let scores := uniquePerms.map (fun P => frobeniusScore P gamma)
  let logProbs := (gumbelEvalPairs uniquePerms batch).map (fun pq => logProb pq.1 pq.2)
  let losses := (chunkMeans batch.length uniquePerms.length logProbs).map (fun m => -m)
  dotList (scores.map ex) losses / (scores.map ex).sum

/-- Boltzmann-weighted average of per-permutation negative mean
log-likelihoods over a set of permutations, written directly from the claim:
`(Σ_P exp(score_P) · loss_P) / (Σ_P exp(score_P))` with
`score_P = ⟨P, gamma⟩` and `loss_P = −mean_x log_prob(x, P)`. -/
def boltzmannAverageLoss {d : ℕ} (logProb : Mat d → (Fin d → ℚ) → ℚ) (ex : ℚ → ℚ)
    (gamma : Mat d) (uniquePerms : List (Mat d)) (batch : List (Fin d → ℚ)) : ℚ :=
  (uniquePerms.map (fun P =>
      ex (frobeniusScore P gamma) * -((batch.map (logProb P)).sum / (batch.length : ℚ)))).sum /
    (uniquePerms.map (fun P => ex (frobeniusScore P gamma))).sum

theorem zip_replicate_left {α β : Type} (P : α) (batch : List β) :
    (List.replicate batch.length P).zip batch = batch.map (fun x => (P, x)) := by
  induction batch with
  | nil => rfl
  | cons x xs ih => simp [List.replicate_succ, ih]

theorem gumbelEvalPairs_eq {d : ℕ} (U : List (Mat d)) (batch : List (Fin d → ℚ)) :
    gumbelEvalPairs U batch = U.flatMap (fun P => batch.map (fun x => (P, x))) := by
  induction U with
  | nil => rfl
  | cons P R ih =>
    unfold gumbelEvalPairs at ih ⊢
    simp only [List.flatMap_cons, List.length_cons, List.replicate_succ,
      List.flatten_cons]
    rw [List.zip_append (by simp), ih, zip_replicate_left]

theorem chunkMeans_flatMap {α : Type} (g : α → List ℚ) (b : ℕ)
    (hb : ∀ a, (g a).length = b) (U : List α) :
    chunkMeans b U.length (U.flatMap g) = U.map (fun a => (g a).sum / (b : ℚ)) := by
  induction U with
  | nil => rfl
  | cons a R ih =>
    simp only [List.flatMap_cons, List.length_cons, chunkMeans, List.map_cons]
    rw [List.take_left' (hb a), List.drop_left' (hb a), ih]

theorem dotList_map_map {α : Type} (w l : α → ℚ) (U : List α) :
    dotList (U.map w) (U.map l) = (U.map (fun a => w a * l a)).sum := by
  induction U with
  | nil => rfl
  | cons a R ih => simp only [List.map_cons, dotList, List.zip_cons_cons,
      List.map_cons, List.sum_cons] at ih ⊢; rw [ih]

/-- C1: `GumbelTopK.loss` equals the Boltzmann-weighted average of
per-permutation negative mean log-likelihoods over the unique sampled
permutations, with weights `exp(⟨P, gamma⟩)`; the flat evaluation batch pairs
each unique permutation with each batch sample exactly once (and the unique
list has no duplicates), so each unique permutation's likelihood is evaluated
exactly once. -/
theorem gumbelTopKLoss_eq_boltzmann {d : ℕ} (logProb : Mat d → (Fin d → ℚ) → ℚ)
    (ex : ℚ → ℚ) (gamma : Mat d) (noise : ℕ → Mat d) (numSamples : ℕ)
    (batch : List (Fin d → ℚ)) :
    gumbelTopKLoss logProb ex gamma noise numSamples batch =
      boltzmannAverageLoss logProb ex gamma
        (sampleHardPermutations gamma noise numSamples).dedup batch ∧
    gumbelEvalPairs (sampleHardPermutations gamma noise numSamples).dedup batch =
      (sampleHardPermutations gamma noise numSamples).dedup.flatMap
        (fun P => batch.map (fun x => (P, x))) ∧
    ((sampleHardPermutations gamma noise numSamples).dedup).Nodup := by
  refine ⟨?_, gumbelEvalPairs_eq _ batch, List.nodup_dedup _⟩
  set U := (sampleHardPermutations gamma noise numSamples).dedup with hU
  show dotList ((U.map (fun P => frobeniusScore P gamma)).map ex)
      ((chunkMeans batch.length U.length
        ((gumbelEvalPairs U batch).map (fun pq => logProb pq.1 pq.2))).map (fun m => -m)) /
      ((U.map (fun P => frobeniusScore P gamma)).map ex).sum =
    boltzmannAverageLoss logProb ex gamma U batch
  have h1 : (gumbelEvalPairs U batch).map (fun pq => logProb pq.1 pq.2) =
      U.flatMap (fun P => batch.map (logProb P)) := by
    rw [gumbelEvalPairs_eq, List.map_flatMap]
    exact congrArg (fun f => U.flatMap f) (funext fun P => by rw [List.map_map]; rfl)
  rw [h1, chunkMeans_flatMap (fun P => batch.map (logProb P)) batch.length (by simp) U]
  simp only [List.map_map]
  rw [dotList_map_map]
  unfold boltzmannAverageLoss
  refine congrArg₂ (fun p q : ℚ => p / q) ?_ rfl
  refine congrArg List.sum (List.map_congr_left fun P _ => ?_)
  simp [Function.comp, mul_neg]

/-! ## MaskedAffineFlowTransform (src/ocd/models/masked/affine_flow_transform.py)

The masked network `self.made` (a `MaskedMLP`, whose module is not under
`src/`) is abstracted as a function argument `made` producing the flat
autoregressive parameter vector; the float `torch.exp` is abstracted as `E`. -/

/-- Embeds `_split_scale_and_shift`: `(0, p)` in the additive variant, else the
even-indexed entries `p[..., 0::2]` as scale and the odd-indexed entries
`p[..., 1::2]` as shift. -/
def splitScaleShift {d : ℕ} (additive : Bool) (p : ℕ → ℚ) :
    (Fin d → ℚ) × (Fin d → ℚ) :=
  if additive then (fun _ => 0, fun i => p i)
  else (fun i => p (2 * (i : ℕ)), fun i => p (2 * (i : ℕ) + 1))

/-- Scale component `s` produced by one pass of the masked network at `x`. -/
def scaleOf {d : ℕ} (additive : Bool) (made : (Fin d → ℚ) → ℕ → ℚ)
    (x : Fin d → ℚ) : Fin d → ℚ :=
  (splitScaleShift additive (made x)).1

/-- Shift component `t` produced by one pass of the masked network at `x`. -/
def shiftOf {d : ℕ} (additive : Bool) (made : (Fin d → ℚ) → ℕ → ℚ)
    (x : Fin d → ℚ) : Fin d → ℚ :=
  (splitScaleShift additive (made x)).2

/-- Embeds `MaskedAffineFlowTransform.forward`: one pass of the masked network
on the fully-observed input yields `(s, t)`, and the result is
`outputs = inputs * exp(-s) - t * exp(-s)` with `logabsdet = -Σ s`. -/
def flowForward {d : ℕ} (additive : Bool) (made : (Fin d → ℚ) → ℕ → ℚ)
    (E : ℚ → ℚ) (x : Fin d → ℚ) : (Fin d → ℚ) × ℚ :=
  let st := splitScaleShift additive (made x)
  (fun i => x i * E (-st.1 i) - st.2 i * E (-st.1 i), -∑ i, st.1 i)

/-- Embeds the refinement loop of `MaskedAffineFlowTransform.inverse`:
`outputs` starts at zero; each pass feeds the current `outputs` through the
masked network and recomputes `outputs = exp(s) * z + t` and
`logabsdet = Σ s`.  `flowInverseLoop ... k` is the state after `k` passes
(the pair of `outputs` and the last computed `logabsdet`; before any pass the
`logabsdet` slot is an unused placeholder `0`). -/
def flowInverseLoop {d : ℕ} (additive : Bool) (made : (Fin d → ℚ) → ℕ → ℚ)
    (E : ℚ → ℚ) (z : Fin d → ℚ) : ℕ → (Fin d → ℚ) × ℚ
  | 0 => (fun _ => 0, 0)
  | k + 1 =>
    let prev := (flowInverseLoop additive made E z k).1
    let st := splitScaleShift additive (made prev)
    (fun i => E (st.1 i) * z i + st.2 i, ∑ i, st.1 i)

/-- Embeds `MaskedAffineFlowTransform.inverse`: run the refinement pass
`d = inputs.shape[-1]` times and return the final outputs and the last pass's
`logabsdet`. -/
def flowInverse {d : ℕ} (additive : Bool) (made : (Fin d → ℚ) → ℕ → ℚ)
    (E : ℚ → ℚ) (z : Fin d → ℚ) : (Fin d → ℚ) × ℚ :=
  flowInverseLoop additive made E z d

/-- Inputs at which `forward` invokes the masked network: exactly one pass. -/
def flowForwardMadeInputs {d : ℕ} (x : Fin d → ℚ) : List (Fin d → ℚ) := [x]

/-- Inputs at which `inverse` invokes the masked network, in order: the
partially-resolved outputs before each of the `d` passes. -/
def flowInverseMadeInputs {d : ℕ} (additive : Bool) (made : (Fin d → ℚ) → ℕ → ℚ)
    (E : ℚ → ℚ) (z : Fin d → ℚ) : List (Fin d → ℚ) :=
  (List.range d).map (fun k => (flowInverseLoop additive made E z k).1)

/-- Refinement sequence written directly from the claim: `x₀ = 0` and
`x_{k+1} = e^{s(x_k)} * z + t(x_k)` using the currently-resolved partial `x`. -/
def refinementSeq {d : ℕ} (additive : Bool) (made : (Fin d → ℚ) → ℕ → ℚ)
    (E : ℚ → ℚ) (z : Fin d → ℚ) : ℕ → Fin d → ℚ
  | 0 => fun _ => 0
  | k + 1 => fun i =>
    E (scaleOf additive made (refinementSeq additive made E z k) i) * z i +
      shiftOf additive made (refinementSeq additive made E z k) i

theorem refinementSeq_eq_loop {d : ℕ} (additive : Bool)
    (made : (Fin d → ℚ) → ℕ → ℚ) (E : ℚ → ℚ) (z : Fin d → ℚ) (k : ℕ) :
    refinementSeq additive made E z k = (flowInverseLoop additive made E z k).1 := by
  induction k with
  | zero => rfl
  | succ k ih =>
    funext i
    simp only [refinementSeq, flowInverseLoop, scaleOf, shiftOf, ih]

/-- C2: `forward` computes, from a single pass of the masked network, scale
`s` and shift `t` and returns `z = (x − t)·e^{−s}` with `logabsdet = −Σ s`;
`inverse` invokes the masked network exactly `d` times, each pass recomputing
`x = e^{s}·z + t` from the currently-resolved partial `x`, and returns the
final `x` with `logabsdet = Σ s` taken from the last pass; in the additive
variant `s ≡ 0` in both directions. -/
theorem flowTransform_forward_inverse_shape {d : ℕ} (additive : Bool)
    (made : (Fin d → ℚ) → ℕ → ℚ) (E : ℚ → ℚ) (x z : Fin d → ℚ) (m : ℕ)
    (hd : d = m + 1) :
    flowForward additive made E x =
      (fun i => (x i - shiftOf additive made x i) * E (-scaleOf additive made x i),
        -∑ i, scaleOf additive made x i) ∧
    (flowForwardMadeInputs x).length = 1 ∧
    (flowInverse additive made E z).1 = refinementSeq additive made E z d ∧
    (flowInverse additive made E z).2 =
      ∑ i, scaleOf additive made (refinementSeq additive made E z m) i ∧
    (flowInverseMadeInputs additive made E z).length = d ∧
    (∀ v : Fin d → ℚ, additive = true → scaleOf additive made v = fun _ => 0) := by
  refine ⟨?_, rfl, (refinementSeq_eq_loop additive made E z d).symm, ?_, by
    simp [flowInverseMadeInputs], fun v h => ?_⟩
  · unfold flowForward
    refine Prod.ext ?_ rfl
    funext i
    show x i * E (-scaleOf additive made x i) -
        shiftOf additive made x i * E (-scaleOf additive made x i) = _
    ring
  · subst hd
    show (flowInverseLoop additive made E z (m + 1)).2 = _
    simp only [flowInverseLoop, refinementSeq_eq_loop]
    rfl
  · subst h
    simp [scaleOf, splitScaleShift]

/-- Witness for `flowTransform_forward_inverse_shape` at `d = 1` with a
concrete network and exponential stand-in. -/
theorem flowTransform_forward_inverse_shape_witness :
    flowForward (d := 1) false (fun v n => v 0 + (n : ℚ)) (fun a => a + 1) (fun _ => 3) =
      (fun i => ((fun _ => (3 : ℚ)) i -
          shiftOf (d := 1) false (fun v n => v 0 + (n : ℚ)) (fun _ => 3) i) *
          (fun a => a + 1) (-scaleOf (d := 1) false (fun v n => v 0 + (n : ℚ)) (fun _ => 3) i),
        -∑ i, scaleOf (d := 1) false (fun v n => v 0 + (n : ℚ)) (fun _ => 3) i) ∧
    (flowForwardMadeInputs (d := 1) (fun _ => 3)).length = 1 ∧
    (flowInverse (d := 1) false (fun v n => v 0 + (n : ℚ)) (fun a => a + 1) (fun _ => 5)).1 =
      refinementSeq (d := 1) false (fun v n => v 0 + (n : ℚ)) (fun a => a + 1) (fun _ => 5) 1 ∧
    (flowInverse (d := 1) false (fun v n => v 0 + (n : ℚ)) (fun a => a + 1) (fun _ => 5)).2 =
      ∑ i, scaleOf (d := 1) false (fun v n => v 0 + (n : ℚ))
        (refinementSeq (d := 1) false (fun v n => v 0 + (n : ℚ)) (fun a => a + 1)
          (fun _ => 5) 0) i ∧
    (flowInverseMadeInputs (d := 1) false (fun v n => v 0 + (n : ℚ)) (fun a => a + 1)
      (fun _ => 5)).length = 1 ∧
    (∀ v : Fin 1 → ℚ, false = true →
      scaleOf (d := 1) false (fun v n => v 0 + (n : ℚ)) v = fun _ => 0) :=
  flowTransform_forward_inverse_shape false (fun v n => v 0 + (n : ℚ)) (fun a => a + 1)
    (fun _ => 3) (fun _ => 5) 0 rfl

/-- Strict autoregressive masking contract of the masked network under a
permutation `π` (spec 4.1, with `auto_connection` disabled as in
`MaskedAffineFlowTransform.__init__`): the scale and shift at output position
`i` depend only on input coordinates at strictly earlier positions under `π`. -/
def StrictlyAutoregressive {d : ℕ} (additive : Bool)
    (made : (Fin d → ℚ) → ℕ → ℚ) (π : Equiv.Perm (Fin d)) : Prop :=
  ∀ u v : Fin d → ℚ, ∀ i : Fin d,
    (∀ j : Fin d, (π j : ℕ) < (π i : ℕ) → u j = v j) →
    scaleOf additive made u i = scaleOf additive made v i ∧
    shiftOf additive made u i = shiftOf additive made v i

theorem flowInverseLoop_agrees {d : ℕ} (additive : Bool)
    (made : (Fin d → ℚ) → ℕ → ℚ) (E : ℚ → ℚ) (π : Equiv.Perm (Fin d))
    (x : Fin d → ℚ) (hE : ∀ a, E a * E (-a) = 1)
    (hmask : StrictlyAutoregressive additive made π) :
    ∀ k, ∀ i : Fin d, (π i : ℕ) < k →
      (flowInverseLoop additive made E (flowForward additive made E x).1 k).1 i = x i := by
  intro k
  induction k with
  | zero => exact fun i hi => absurd hi (Nat.not_lt_zero _)
  | succ k ih =>
    intro i hi
    have hagree : ∀ j : Fin d, (π j : ℕ) < (π i : ℕ) →
        (flowInverseLoop additive made E (flowForward additive made E x).1 k).1 j = x j :=
      fun j hj => ih j (lt_of_lt_of_le hj (Nat.lt_succ_iff.mp hi))
    obtain ⟨hs, ht⟩ := hmask _ x i hagree
    show E (scaleOf additive made
        (flowInverseLoop additive made E (flowForward additive made E x).1 k).1 i) *
        (flowForward additive made E x).1 i + shiftOf additive made
        (flowInverseLoop additive made E (flowForward additive made E x).1 k).1 i = x i
    rw [hs, ht]
    show E (scaleOf additive made x i) *
        (x i * E (-scaleOf additive made x i) -
          shiftOf additive made x i * E (-scaleOf additive made x i)) +
        shiftOf additive made x i = x i
    have h1 := hE (scaleOf additive made x i)
    calc E (scaleOf additive made x i) *
        (x i * E (-scaleOf additive made x i) -
          shiftOf additive made x i * E (-scaleOf additive made x i)) +
        shiftOf additive made x i
        = (E (scaleOf additive made x i) * E (-scaleOf additive made x i)) * x i -
            (E (scaleOf additive made x i) * E (-scaleOf additive made x i)) *
              shiftOf additive made x i + shiftOf additive made x i := by ring
      _ = x i := by rw [h1]; ring

theorem flowInverseLoop_stable {d : ℕ} (additive : Bool)
    (made : (Fin d → ℚ) → ℕ → ℚ) (E : ℚ → ℚ) (π : Equiv.Perm (Fin d))
    (z : Fin d → ℚ) (hmask : StrictlyAutoregressive additive made π) :
    ∀ k, ∀ j : Fin d, (π j : ℕ) < k →
      (flowInverseLoop additive made E z k).1 j =
        (flowInverseLoop additive made E z (k + 1)).1 j := by
  intro k
  induction k with
  | zero => exact fun j hj => absurd hj (Nat.not_lt_zero _)
  | succ k ih =>
    intro j hj
    have hagree : ∀ j' : Fin d, (π j' : ℕ) < (π j : ℕ) →
        (flowInverseLoop additive made E z k).1 j' =
          (flowInverseLoop additive made E z (k + 1)).1 j' :=
      fun j' hj' => ih j' (lt_of_lt_of_le hj' (Nat.lt_succ_iff.mp hj))
    obtain ⟨hs, ht⟩ := hmask _ _ j hagree
    show E (scaleOf additive made (flowInverseLoop additive made E z k).1 j) * z j +
        shiftOf additive made (flowInverseLoop additive made E z k).1 j =
      E (scaleOf additive made (flowInverseLoop additive made E z (k + 1)).1 j) * z j +
        shiftOf additive made (flowInverseLoop additive made E z (k + 1)).1 j
    rw [hs, ht]

/-- C3: under the strict lower-triangular autoregressive mask induced by a
permutation (auto-connections disabled) and the exponential law
`e^{a}·e^{−a} = 1`, the transform satisfies the exact round-trip identities
`inverse(forward(x)) = x` and `forward(inverse(z)) = z`, and
`logabsdet_forward = −logabsdet_inverse` on both round trips. -/
theorem flowTransform_roundTrip {d : ℕ} (additive : Bool)
    (made : (Fin d → ℚ) → ℕ → ℚ) (E : ℚ → ℚ) (π : Equiv.Perm (Fin d))
    (x z : Fin d → ℚ) (hE : ∀ a, E a * E (-a) = 1)
    (hmask : StrictlyAutoregressive additive made π) :
    (flowInverse additive made E (flowForward additive made E x).1).1 = x ∧
    (flowForward additive made E x).2 =
      -(flowInverse additive made E (flowForward additive made E x).1).2 ∧
    (flowForward additive made E (flowInverse additive made E z).1).1 = z ∧
    (flowForward additive made E (flowInverse additive made E z).1).2 =
      -(flowInverse additive made E z).2 := by
  have hfix : ∀ j : Fin d,
      (flowInverseLoop additive made E z d).1 j =
        E (scaleOf additive made (flowInverseLoop additive made E z d).1 j) * z j +
          shiftOf additive made (flowInverseLoop additive made E z d).1 j := by
    intro j
    have hst := flowInverseLoop_stable additive made E π z hmask d j (π j).isLt
    rw [hst]
    rfl
  refine ⟨?_, ?_, ?_, ?_⟩
  · funext i
    exact flowInverseLoop_agrees additive made E π x hE hmask d i (π i).isLt
  · cases d with
    | zero =>
      show -(∑ i : Fin 0, scaleOf additive made x i) = -(0 : ℚ)
      simp
    | succ m =>
      show -(∑ i, scaleOf additive made x i) =
        -(∑ i, scaleOf additive made
          (flowInverseLoop additive made E (flowForward additive made E x).1 m).1 i)
      refine congrArg Neg.neg (Finset.sum_congr rfl fun i _ => ?_)
      have hagree : ∀ j : Fin (m + 1), (π j : ℕ) < (π i : ℕ) →
          x j = (flowInverseLoop additive made E (flowForward additive made E x).1 m).1 j :=
        fun j hj => (flowInverseLoop_agrees additive made E π x hE hmask m j
          (lt_of_lt_of_le hj (Nat.lt_succ_iff.mp (π i).isLt))).symm
      exact (hmask x _ i hagree).1
  · funext j
    show (flowInverseLoop additive made E z d).1 j *
        E (-scaleOf additive made (flowInverseLoop additive made E z d).1 j) -
        shiftOf additive made (flowInverseLoop additive made E z d).1 j *
          E (-scaleOf additive made (flowInverseLoop additive made E z d).1 j) = z j
    rw [hfix j]
    have h1 := hE (scaleOf additive made (flowInverseLoop additive made E z d).1 j)
    calc (E (scaleOf additive made (flowInverseLoop additive made E z d).1 j) * z j +
          shiftOf additive made (flowInverseLoop additive made E z d).1 j) *
          E (-scaleOf additive made (flowInverseLoop additive made E z d).1 j) -
          shiftOf additive made (flowInverseLoop additive made E z d).1 j *
            E (-scaleOf additive made (flowInverseLoop additive made E z d).1 j)
        = (E (scaleOf additive made (flowInverseLoop additive made E z d).1 j) *
            E (-scaleOf additive made (flowInverseLoop additive made E z d).1 j)) * z j := by
          ring
      _ = z j := by rw [h1]; ring
  · cases d with
    | zero =>
      show -(∑ i : Fin 0, scaleOf additive made _ i) = -(0 : ℚ)
      simp
    | succ m =>
      show -(∑ i, scaleOf additive made (flowInverseLoop additive made E z (m + 1)).1 i) =
        -(∑ i, scaleOf additive made (flowInverseLoop additive made E z m).1 i)
      refine congrArg Neg.neg (Finset.sum_congr rfl fun i _ => ?_)
      have hagree : ∀ j : Fin (m + 1), (π j : ℕ) < (π i : ℕ) →
          (flowInverseLoop additive made E z (m + 1)).1 j =
            (flowInverseLoop additive made E z m).1 j :=
        fun j hj => (flowInverseLoop_stable additive made E π z hmask m j
          (lt_of_lt_of_le hj (Nat.lt_succ_iff.mp (π i).isLt))).symm
      exact (hmask _ _ i hagree).1

/-- Witness for `flowTransform_roundTrip`: a one-dimensional additive
transform with a constant network and the trivial exponential `E = 1`. -/
theorem flowTransform_roundTrip_witness :
    (flowInverse (d := 1) true (fun _ _ => 7) (fun _ => 1)
        (flowForward (d := 1) true (fun _ _ => 7) (fun _ => 1) (fun _ => 2)).1).1 =
      (fun _ => 2) ∧
    (flowForward (d := 1) true (fun _ _ => 7) (fun _ => 1) (fun _ => 2)).2 =
      -(flowInverse (d := 1) true (fun _ _ => 7) (fun _ => 1)
          (flowForward (d := 1) true (fun _ _ => 7) (fun _ => 1) (fun _ => 2)).1).2 ∧
    (flowForward (d := 1) true (fun _ _ => 7) (fun _ => 1)
        (flowInverse (d := 1) true (fun _ _ => 7) (fun _ => 1) (fun _ => 4)).1).1 =
      (fun _ => 4) ∧
    (flowForward (d := 1) true (fun _ _ => 7) (fun _ => 1)
        (flowInverse (d := 1) true (fun _ _ => 7) (fun _ => 1) (fun _ => 4)).1).2 =
      -(flowInverse (d := 1) true (fun _ _ => 7) (fun _ => 1) (fun _ => 4)).2 :=
  flowTransform_roundTrip true (fun _ _ => 7) (fun _ => 1) (Equiv.refl (Fin 1))
    (fun _ => 2) (fun _ => 4) (fun _ => by norm_num) (fun u v i _ => ⟨rfl, rfl⟩)

/-! ## PhaseChangerCallback (src/ocd/training/callbacks/phase_changer.py)

State of the callback together with the `pl_module.current_phase` attribute it
manipulates.  Python floats are rationals and `float("inf")` is `⊤ : WithTop
ℚ`; the patience counters are integers (Python ints can go negative). -/

structure PCState where
  currentPhase : String
  epochsOnMaximization : ℕ
  epochsOnExpectation : ℕ
  baselineTrainingLossPatience : ℤ
  trainingLossPatienceRemaining : ℤ
  lossConvergenceThresholdEps : ℚ
  runningMinimumTrainingLoss : WithTop ℚ
  baselineGeneralizationPatience : ℤ
  generalizationPatienceRemaining : ℤ
  runningMinimumValidationLoss : WithTop ℚ
  trainingIterationCounter : ℕ
  checkEveryNIterations : ℕ
  lossConvergenceEarlyStopping : Bool
deriving DecidableEq

/-- IEEE-style subtraction of a finite float from a possibly-infinite one:
`inf - eps = inf`, matching `float("inf") - eps` in Python. -/
def subEps (m : WithTop ℚ) (e : ℚ) : WithTop ℚ :=
  WithTop.map (fun a => a - e) m

theorem subEps_le (m : WithTop ℚ) (e : ℚ) (he : 0 ≤ e) : subEps m e ≤ m := by
  induction m using WithTop.recTopCoe with
  | top => simp [subEps]
  | coe a =>
    simp only [subEps, WithTop.map_coe, WithTop.coe_le_coe]
    linarith

/-- Embeds `PhaseChangerCallback.change_phase`: toggle the phase, zero both
per-phase epoch counters, reset both patience counters to their baselines, and
reset both running minima to `float("inf")`.  (The optional optimizer reset
and weight reinitialization act on objects outside this state.) -/
def changePhase (st : PCState) : PCState :=
  { st with
    currentPhase :=
      if st.currentPhase = "maximization" then "expectation"
      else if st.currentPhase = "expectation" then "maximization"
      else st.currentPhase,
    epochsOnExpectation := 0,
    epochsOnMaximization := 0,
    trainingLossPatienceRemaining := st.baselineTrainingLossPatience,
    runningMinimumTrainingLoss := ⊤,
    generalizationPatienceRemaining := st.baselineGeneralizationPatience,
    runningMinimumValidationLoss := ⊤ }

/-- Embeds `PhaseChangerCallback.on_train_batch_end` for one batch whose
training loss is `loss`; returns the new state and whether a phase transition
fired during this call. -/
def onTrainBatchEnd (st : PCState) (loss : ℚ) : PCState × Bool :=
  if st.lossConvergenceEarlyStopping = false ∨ st.currentPhase = "expectation" then
    (st, false)
  else
    let st1 := { st with trainingIterationCounter := st.trainingIterationCounter + 1 }
    if st1.trainingIterationCounter % st1.checkEveryNIterations ≠ 0 then (st1, false)
    else if (loss : WithTop ℚ) <
        subEps st1.runningMinimumTrainingLoss st1.lossConvergenceThresholdEps then
      ({ st1 with
          trainingLossPatienceRemaining := st1.baselineTrainingLossPatience,
          runningMinimumTrainingLoss :=
            min st1.runningMinimumTrainingLoss (loss : WithTop ℚ) }, false)
    else
      let st2 := { st1 with
        trainingLossPatienceRemaining := st1.trainingLossPatienceRemaining - 1 }
      if st2.trainingLossPatienceRemaining = 0 then (changePhase st2, true)
      else (st2, false)

/-- Folds `on_train_batch_end` over a sequence of per-batch losses, recording
for each call whether a transition fired. -/
def runTrainBatches (st : PCState) : List ℚ → List Bool
  | [] => []
  | l :: rest =>
    let r := onTrainBatchEnd st l
    r.2 :: runTrainBatches r.1 rest

theorem onTrainBatchEnd_inactive (st : PCState) (loss : ℚ)
    (h : st.lossConvergenceEarlyStopping = false ∨ st.currentPhase = "expectation") :
    onTrainBatchEnd st loss = (st, false) := by
  unfold onTrainBatchEnd
  rw [if_pos h]

theorem onTrainBatchEnd_improve (st : PCState) (loss : ℚ)
    (hstop : st.lossConvergenceEarlyStopping = true)
    (hphase : st.currentPhase ≠ "expectation")
    (hcheck : (st.trainingIterationCounter + 1) % st.checkEveryNIterations = 0)
    (himp : (loss : WithTop ℚ) <
      subEps st.runningMinimumTrainingLoss st.lossConvergenceThresholdEps) :
    onTrainBatchEnd st loss =
      ({ st with
          trainingIterationCounter := st.trainingIterationCounter + 1,
          trainingLossPatienceRemaining := st.baselineTrainingLossPatience,
          runningMinimumTrainingLoss :=
            min st.runningMinimumTrainingLoss (loss : WithTop ℚ) }, false) := by
  unfold onTrainBatchEnd
  rw [if_neg (by simp [hstop, hphase])]
  rw [if_neg (fun hc => hc hcheck)]
  rw [if_pos himp]

theorem onTrainBatchEnd_noImprove (st : PCState) (loss : ℚ)
    (hstop : st.lossConvergenceEarlyStopping = true)
    (hphase : st.currentPhase ≠ "expectation")
    (hcheck : (st.trainingIterationCounter + 1) % st.checkEveryNIterations = 0)
    (hni : ¬((loss : WithTop ℚ) <
      subEps st.runningMinimumTrainingLoss st.lossConvergenceThresholdEps))
    (hrem : st.trainingLossPatienceRemaining ≠ 1) :
    onTrainBatchEnd st loss =
      ({ st with
          trainingIterationCounter := st.trainingIterationCounter + 1,
          trainingLossPatienceRemaining := st.trainingLossPatienceRemaining - 1 },
        false) := by
  unfold onTrainBatchEnd
  rw [if_neg (by simp [hstop, hphase])]
  rw [if_neg (fun hc => hc hcheck)]
  rw [if_neg hni]
  rw [if_neg (by simpa using fun hc => hrem (by omega))]

theorem onTrainBatchEnd_transition (st : PCState) (loss : ℚ)
    (hstop : st.lossConvergenceEarlyStopping = true)
    (hphase : st.currentPhase ≠ "expectation")
    (hcheck : (st.trainingIterationCounter + 1) % st.checkEveryNIterations = 0)
    (hni : ¬((loss : WithTop ℚ) <
      subEps st.runningMinimumTrainingLoss st.lossConvergenceThresholdEps))
    (hrem : st.trainingLossPatienceRemaining = 1) :
    onTrainBatchEnd st loss =
      (changePhase { st with
          trainingIterationCounter := st.trainingIterationCounter + 1,
          trainingLossPatienceRemaining := st.trainingLossPatienceRemaining - 1 },
        true) := by
  unfold onTrainBatchEnd
  rw [if_neg (by simp [hstop, hphase])]
  rw [if_neg (fun hc => hc hcheck)]
  rw [if_neg hni]
  rw [if_pos (by simp [hrem])]

theorem runTrainBatches_patienceFive (em ee c : ℕ) (bg gg : ℤ) (m mv : WithTop ℚ)
    (eps l1 l2 l3 l4 l5 : ℚ)
    (h1 : ¬((l1 : WithTop ℚ) < subEps m eps))
    (h2 : ¬((l2 : WithTop ℚ) < subEps m eps))
    (h3 : ¬((l3 : WithTop ℚ) < subEps m eps))
    (h4 : ¬((l4 : WithTop ℚ) < subEps m eps))
    (h5 : ¬((l5 : WithTop ℚ) < subEps m eps)) :
    runTrainBatches ⟨"maximization", em, ee, 5, 5, eps, m, bg, gg, mv, c, 1, true⟩
      [l1, l2, l3, l4, l5] = [false, false, false, false, true] := by
  have e1 : onTrainBatchEnd ⟨"maximization", em, ee, 5, 5, eps, m, bg, gg, mv, c, 1, true⟩ l1 =
      (⟨"maximization", em, ee, 5, 4, eps, m, bg, gg, mv, c + 1, 1, true⟩, false) :=
    onTrainBatchEnd_noImprove _ _ rfl
      (by exact (by decide : ("maximization" : String) ≠ "expectation")) (Nat.mod_one _) h1
      (by exact (by decide : (5 : ℤ) ≠ 1))
  have e2 : onTrainBatchEnd ⟨"maximization", em, ee, 5, 4, eps, m, bg, gg, mv, c + 1, 1, true⟩ l2 =
      (⟨"maximization", em, ee, 5, 3, eps, m, bg, gg, mv, c + 1 + 1, 1, true⟩, false) :=
    onTrainBatchEnd_noImprove _ _ rfl
      (by exact (by decide : ("maximization" : String) ≠ "expectation")) (Nat.mod_one _) h2
      (by exact (by decide : (4 : ℤ) ≠ 1))
  have e3 : onTrainBatchEnd
      ⟨"maximization", em, ee, 5, 3, eps, m, bg, gg, mv, c + 1 + 1, 1, true⟩ l3 =
      (⟨"maximization", em, ee, 5, 2, eps, m, bg, gg, mv, c + 1 + 1 + 1, 1, true⟩, false) :=
    onTrainBatchEnd_noImprove _ _ rfl
      (by exact (by decide : ("maximization" : String) ≠ "expectation")) (Nat.mod_one _) h3
      (by exact (by decide : (3 : ℤ) ≠ 1))
  have e4 : onTrainBatchEnd
      ⟨"maximization", em, ee, 5, 2, eps, m, bg, gg, mv, c + 1 + 1 + 1, 1, true⟩ l4 =
      (⟨"maximization", em, ee, 5, 1, eps, m, bg, gg, mv, c + 1 + 1 + 1 + 1, 1, true⟩, false) :=
    onTrainBatchEnd_noImprove _ _ rfl
      (by exact (by decide : ("maximization" : String) ≠ "expectation")) (Nat.mod_one _) h4
      (by exact (by decide : (2 : ℤ) ≠ 1))
  have e5 : onTrainBatchEnd
      ⟨"maximization", em, ee, 5, 1, eps, m, bg, gg, mv, c + 1 + 1 + 1 + 1, 1, true⟩ l5 =
      (changePhase ⟨"maximization", em, ee, 5, 0, eps, m, bg, gg, mv,
        c + 1 + 1 + 1 + 1 + 1, 1, true⟩, true) :=
    onTrainBatchEnd_transition _ _ rfl
      (by exact (by decide : ("maximization" : String) ≠ "expectation")) (Nat.mod_one _) h5 rfl
  simp only [runTrainBatches, e1, e2, e3, e4, e5]

/-- C5: loss-convergence stopping is active only in the maximization (flow)
phase (no-op when disabled or in the expectation phase); at a check, a loss
strictly below `running_min − ε` resets the patience counter to its baseline
and lowers the running minimum to the current loss, otherwise the patience
counter is decremented and exactly one transition fires when it reaches zero;
with patience 5, a strictly-non-improving loss sequence of length 5 triggers
exactly one transition, at the 5th check; and every transition resets both
per-phase epoch counters, both patience counters, and both running minima. -/
theorem phaseChanger_lossConvergence (st : PCState) (loss : ℚ)
    (em ee c : ℕ) (bg gg : ℤ) (m mv : WithTop ℚ) (eps l1 l2 l3 l4 l5 : ℚ) :
    ((st.lossConvergenceEarlyStopping = false ∨ st.currentPhase = "expectation") →
      onTrainBatchEnd st loss = (st, false)) ∧
    (st.lossConvergenceEarlyStopping = true → st.currentPhase ≠ "expectation" →
      (st.trainingIterationCounter + 1) % st.checkEveryNIterations = 0 →
      (loss : WithTop ℚ) <
        subEps st.runningMinimumTrainingLoss st.lossConvergenceThresholdEps →
      0 ≤ st.lossConvergenceThresholdEps →
      onTrainBatchEnd st loss =
        ({ st with
            trainingIterationCounter := st.trainingIterationCounter + 1,
            trainingLossPatienceRemaining := st.baselineTrainingLossPatience,
            runningMinimumTrainingLoss := (loss : WithTop ℚ) }, false) ∧
      (loss : WithTop ℚ) < st.runningMinimumTrainingLoss) ∧
    (st.lossConvergenceEarlyStopping = true → st.currentPhase ≠ "expectation" →
      (st.trainingIterationCounter + 1) % st.checkEveryNIterations = 0 →
      ¬((loss : WithTop ℚ) <
        subEps st.runningMinimumTrainingLoss st.lossConvergenceThresholdEps) →
      st.trainingLossPatienceRemaining ≠ 1 →
      onTrainBatchEnd st loss =
        ({ st with
            trainingIterationCounter := st.trainingIterationCounter + 1,
            trainingLossPatienceRemaining := st.trainingLossPatienceRemaining - 1 },
          false)) ∧
    (st.lossConvergenceEarlyStopping = true → st.currentPhase ≠ "expectation" →
      (st.trainingIterationCounter + 1) % st.checkEveryNIterations = 0 →
      ¬((loss : WithTop ℚ) <
        subEps st.runningMinimumTrainingLoss st.lossConvergenceThresholdEps) →
      st.trainingLossPatienceRemaining = 1 →
      onTrainBatchEnd st loss =
        (changePhase { st with
            trainingIterationCounter := st.trainingIterationCounter + 1,
            trainingLossPatienceRemaining := st.trainingLossPatienceRemaining - 1 },
          true)) ∧
    ((changePhase st).epochsOnMaximization = 0 ∧
      (changePhase st).epochsOnExpectation = 0 ∧
      (changePhase st).trainingLossPatienceRemaining = st.baselineTrainingLossPatience ∧
      (changePhase st).generalizationPatienceRemaining =
        st.baselineGeneralizationPatience ∧
      (changePhase st).runningMinimumTrainingLoss = ⊤ ∧
      (changePhase st).runningMinimumValidationLoss = ⊤ ∧
      (st.currentPhase = "maximization" → (changePhase st).currentPhase = "expectation") ∧
      (st.currentPhase = "expectation" → (changePhase st).currentPhase = "maximization")) ∧
    (¬((l1 : WithTop ℚ) < subEps m eps) → ¬((l2 : WithTop ℚ) < subEps m eps) →
      ¬((l3 : WithTop ℚ) < subEps m eps) → ¬((l4 : WithTop ℚ) < subEps m eps) →
      ¬((l5 : WithTop ℚ) < subEps m eps) →
      runTrainBatches ⟨"maximization", em, ee, 5, 5, eps, m, bg, gg, mv, c, 1, true⟩
        [l1, l2, l3, l4, l5] = [false, false, false, false, true]) := by
  refine ⟨onTrainBatchEnd_inactive st loss, ?_, ?_, ?_, ?_, ?_⟩
  · intro hstop hphase hcheck himp heps
    have hlt : (loss : WithTop ℚ) < st.runningMinimumTrainingLoss :=
      lt_of_lt_of_le himp (subEps_le _ _ heps)
    refine ⟨?_, hlt⟩
    rw [onTrainBatchEnd_improve st loss hstop hphase hcheck himp]
    rw [min_eq_right (le_of_lt hlt)]
  · intro hstop hphase hcheck hni hrem
    exact onTrainBatchEnd_noImprove st loss hstop hphase hcheck hni hrem
  · intro hstop hphase hcheck hni hrem
    exact onTrainBatchEnd_transition st loss hstop hphase hcheck hni hrem
  · refine ⟨rfl, rfl, rfl, rfl, rfl, rfl, fun h => ?_, fun h => ?_⟩
    · simp [changePhase, h]
    · simp [changePhase, h]
  · exact runTrainBatches_patienceFive em ee c bg gg m mv eps l1 l2 l3 l4 l5

/-- Witness for `phaseChanger_lossConvergence` at a concrete controller state
and loss sequence. -/
theorem phaseChanger_lossConvergence_witness :
    runTrainBatches ⟨"maximization", 0, 0, 5, 5, (1 : ℚ) / 10000,
        ((3 : ℚ) : WithTop ℚ), 5, 5, ⊤, 0, 1, true⟩
      [3, 3, 3, 3, 3] = [false, false, false, false, true] :=
  have hni : ¬(((3 : ℚ) : WithTop ℚ) < subEps ((3 : ℚ) : WithTop ℚ) ((1 : ℚ) / 10000)) := by
    simp only [subEps, WithTop.map_coe, WithTop.coe_lt_coe]
    norm_num
  ((phaseChanger_lossConvergence
      ⟨"maximization", 0, 0, 5, 5, (1 : ℚ) / 10000, ((3 : ℚ) : WithTop ℚ), 5, 5, ⊤, 0, 1, true⟩
      3 0 0 0 5 5 ((3 : ℚ) : WithTop ℚ) ⊤ ((1 : ℚ) / 10000)
      3 3 3 3 3).2.2.2.2.2)
    hni hni hni hni hni

/-! ## Trainer.train alternation loop (src/ocd/training/trainer.py, lines 131-228)

The loop is embedded as a trace of observable events: one event per batch
processed (recording the epoch, the step index within the epoch, the batch
index, and the gradient/mode flags in force while the batch is processed) and
one event per `log_evaluation` call.  Optimizer, scheduler and logging calls
carry no state relevant to the claims. -/

inductive TrainEvent where
  | flowBatch (epoch pass batchIdx : ℕ) (gammaGrad flowGrad flowTraining : Bool)
  | permBatch (epoch pass batchIdx : ℕ) (gammaGrad flowGrad flowTraining : Bool)
  | evaluation (epoch pass : ℕ)
deriving DecidableEq, Repr

/-- Mutable flags toggled by the two step functions: `gamma.requires_grad`,
`requires_grad` of the flow parameters, and the flow's train/eval mode. -/
structure TrainState where
  gammaRequiresGrad : Bool
  flowRequiresGrad : Bool
  flowTrainingMode : Bool
deriving DecidableEq, Repr

/-- Embeds `Trainer.flow_train_step`: disable `gamma`'s gradient, iterate the
flow dataloader (each batch processed under the flags then in force), then
re-enable `gamma`'s gradient. -/
def flowTrainStep (epoch pass nBatches : ℕ) (st : TrainState) :
    TrainState × List TrainEvent :=
  let st1 := { st with gammaRequiresGrad := false }
  ({ st1 with gammaRequiresGrad := true },
   (List.range nBatches).map (fun b =>
     TrainEvent.flowBatch epoch pass b st1.gammaRequiresGrad st1.flowRequiresGrad
       st1.flowTrainingMode))

/-- Embeds `Trainer.permutation_train_step`: put the flow in evaluation mode
and disable its gradients, iterate the permutation dataloader, then restore
gradients and training mode. -/
def permutationTrainStep (epoch pass nBatches : ℕ) (st : TrainState) :
    TrainState × List TrainEvent :=
  let st1 := { st with flowTrainingMode := false, flowRequiresGrad := false }
  ({ st1 with flowRequiresGrad := true, flowTrainingMode := true },
   (List.range nBatches).map (fun b =>
     TrainEvent.permBatch epoch pass b st1.gammaRequiresGrad st1.flowRequiresGrad
       st1.flowTrainingMode))

/-- Runs `remaining` flow steps starting at pass index `p`, threading state. -/
def runFlowSteps (epoch nBatches : ℕ) : ℕ → ℕ → TrainState → TrainState × List TrainEvent
  | _, 0, st => (st, [])
  | p, Nat.succ k, st =>
    let r := flowTrainStep epoch p nBatches st
    let rest := runFlowSteps epoch nBatches (p + 1) k r.1
    (rest.1, r.2 ++ rest.2)

/-- Runs `remaining` permutation steps starting at pass index `p`; after every
permutation step the Trainer calls `log_evaluation`. -/
def runPermSteps (epoch nBatches : ℕ) : ℕ → ℕ → TrainState → TrainState × List TrainEvent
  | _, 0, st => (st, [])
  | p, Nat.succ k, st =>
    let r := permutationTrainStep epoch p nBatches st
    let rest := runPermSteps epoch nBatches (p + 1) k r.1
    (rest.1, r.2 ++ [TrainEvent.evaluation epoch p] ++ rest.2)

/-- Runs `remaining` outer epochs starting at epoch index `e`: per epoch,
`flowFrequency` flow steps followed by `permutationFrequency` permutation
steps. -/
def runEpochs (ff pf nFB nPB : ℕ) : ℕ → ℕ → TrainState → TrainState × List TrainEvent
  | _, 0, st => (st, [])
  | e, Nat.succ k, st =>
    let rf := runFlowSteps e nFB 0 ff st
    let rp := runPermSteps e nPB 0 pf rf.1
    let rest := runEpochs ff pf nFB nPB (e + 1) k rp.1
    (rest.1, rf.2 ++ rp.2 ++ rest.2)

/-- Embeds `Trainer.train`: compute `true_epochs` and run that many outer
epochs starting from all flags enabled (both modules in training mode). -/
def trainTrace (maxEpochs ff pf nFB nPB : ℕ) : List TrainEvent :=
  (runEpochs ff pf nFB nPB 0 (trueEpochs maxEpochs ff pf) ⟨true, true, true⟩).2

/-- Event trace of one outer epoch written directly from the claim:
`ff` flow-steps — each a full pass over the `nFB` flow batches with `gamma`'s
gradient disabled — followed by `pf` permutation-steps — each a full pass over
the `nPB` permutation batches with flow gradients disabled and the flow in
evaluation mode, each followed by an evaluation. -/
def specEpochTrace (ff pf nFB nPB e : ℕ) : List TrainEvent :=
  ((List.range ff).flatMap (fun p =>
    (List.range nFB).map (fun b => TrainEvent.flowBatch e p b false true true))) ++
  ((List.range pf).flatMap (fun p =>
    (List.range nPB).map (fun b => TrainEvent.permBatch e p b true false false) ++
      [TrainEvent.evaluation e p]))

/-- Whole-run trace written directly from the claim: exactly
`true_epochs = max_epochs // (ff + pf) + 1` outer epochs in order. -/
def specTrainTrace (maxEpochs ff pf nFB nPB : ℕ) : List TrainEvent :=
  (List.range (trueEpochs maxEpochs ff pf)).flatMap (specEpochTrace ff pf nFB nPB)

theorem runFlowSteps_allTrue (e nFB : ℕ) : ∀ k p,
    runFlowSteps e nFB p k ⟨true, true, true⟩ =
      (⟨true, true, true⟩, (List.range' p k).flatMap (fun q =>
        (List.range nFB).map (fun b => TrainEvent.flowBatch e q b false true true))) := by
  intro k
  induction k with
  | zero => intro p; rfl
  | succ k ih =>
    intro p
    have hstep : flowTrainStep e p nFB ⟨true, true, true⟩ =
        (⟨true, true, true⟩,
          (List.range nFB).map (fun b => TrainEvent.flowBatch e p b false true true)) := rfl
    simp only [runFlowSteps, hstep, ih (p + 1), List.range'_succ, List.flatMap_cons]

theorem runPermSteps_allTrue (e nPB : ℕ) : ∀ k p,
    runPermSteps e nPB p k ⟨true, true, true⟩ =
      (⟨true, true, true⟩, (List.range' p k).flatMap (fun q =>
        (List.range nPB).map (fun b => TrainEvent.permBatch e q b true false false) ++
          [TrainEvent.evaluation e q])) := by
  intro k
  induction k with
  | zero => intro p; rfl
  | succ k ih =>
    intro p
    have hstep : permutationTrainStep e p nPB ⟨true, true, true⟩ =
        (⟨true, true, true⟩,
          (List.range nPB).map (fun b => TrainEvent.permBatch e p b true false false)) := rfl
    simp only [runPermSteps, hstep, ih (p + 1), List.range'_succ, List.flatMap_cons]

theorem runEpochs_allTrue (ff pf nFB nPB : ℕ) : ∀ k e,
    runEpochs ff pf nFB nPB e k ⟨true, true, true⟩ =
      (⟨true, true, true⟩,
        (List.range' e k).flatMap (specEpochTrace ff pf nFB nPB)) := by
  intro k
  induction k with
  | zero => intro e; rfl
  | succ k ih =>
    intro e
    simp only [runEpochs, runFlowSteps_allTrue, runPermSteps_allTrue, ih (e + 1),
      List.range'_succ, List.flatMap_cons]
    simp [specEpochTrace, List.range_eq_range']

/-- C6: `Trainer.train` runs exactly `true_epochs = max_epochs //
(flow_frequency + permutation_frequency) + 1` outer epochs, and each outer
epoch is `flow_frequency` flow-steps (each a full pass over the flow
dataloader with `gamma`'s gradient disabled) followed by
`permutation_frequency` permutation-steps (each a full pass over the
permutation dataloader with flow gradients disabled and the flow in
evaluation mode), in that order. -/
theorem trainTrace_spec (maxEpochs ff pf nFB nPB : ℕ) (_hpos : 0 < ff + pf) :
    trainTrace maxEpochs ff pf nFB nPB = specTrainTrace maxEpochs ff pf nFB nPB ∧
    trueEpochs maxEpochs ff pf = maxEpochs / (ff + pf) + 1 := by
  refine ⟨?_, rfl⟩
  unfold trainTrace specTrainTrace
  rw [runEpochs_allTrue, List.range_eq_range']

/-- Witness for `trainTrace_spec` at concrete frequencies, evaluating both
traces. -/
theorem trainTrace_spec_witness :
    trainTrace 2 1 1 1 1 = specTrainTrace 2 1 1 1 1 ∧
    trueEpochs 2 1 1 = 2 / (1 + 1) + 1 :=
  trainTrace_spec 2 1 1 1 1 (by decide)

/-! ## Trainer.log_evaluation (trainer.py, lines 168-182) and
SCM.count_backward (src/ocd/data/scm/base_scm.py, lines 180-191) -/

theorem argmaxBy_le {α : Type} (score : α → ℚ) (l : List α) (a : α)
    (h : argmaxBy score l = some a) : ∀ b ∈ l, score b ≤ score a := by
  cases l with
  | nil => simp
  | cons x rest =>
    simp only [argmaxBy, Option.some.injEq] at h
    exact fun b hb => h ▸ argmaxAux_le score rest x b hb

/-- Embeds `ordering = {v: i for i, v in enumerate(ordering)}` from
`count_backward`: the dictionary maps a node to the index of its last
occurrence (later duplicates overwrite earlier entries), and lookup of an
absent key is a `KeyError`, modelled as `none`. -/
def orderingDict (ordering : List ℕ) (v : ℕ) : Option ℕ :=
  (ordering.enum.reverse.find? (fun p => p.2 = v)).map Prod.fst

/-- Loop of `count_backward` over the edge list, threading the count and
failing on a missing key. -/
def countBackwardAux (ordering : List ℕ) : List (ℕ × ℕ) → ℕ → Option ℕ
  | [], acc => some acc
  | e :: rest, acc =>
    match orderingDict ordering e.1, orderingDict ordering e.2 with
    | some pu, some pv => countBackwardAux ordering rest (if pv < pu then acc + 1 else acc)
    | _, _ => none

/-- Embeds `SCM.count_backward` (the same function is used by the Trainer via
`ocd.evaluation.count_backward`): number of edges `(u, v)` with
`ordering[u] > ordering[v]`. -/
def countBackward (ordering : List ℕ) (edges : List (ℕ × ℕ)) : Option ℕ :=
  countBackwardAux ordering edges 0

/-- Embeds `torch.unique(permutation_samples, dim=0, return_counts=True)`
followed by `permutation[counts.argmax()]`: the most frequently sampled
permutation matrix (first-found among ties). -/
def majorityPermutation {d : ℕ} (samples : List (Mat d)) : Option (Mat d) :=
  argmaxBy (fun P => ((samples.count P : ℕ) : ℚ)) samples.dedup

/-- Embeds `permutation.argmax(dim=-1).cpu().numpy().tolist()`: per-row
argmax of a permutation matrix, as a list of column indices. -/
def matrixRowArgmax {d : ℕ} (M : Mat d) : List ℕ :=
  (List.finRange d).map (fun i =>
    ((argmaxBy (fun j => M i j) (List.finRange d)).map (fun j => (j : ℕ))).getD 0)

/-- Embeds `Trainer.log_evaluation`: draw 100 hard permutation samples, take
the majority-vote permutation, and record its backward-edge count against the
ground-truth DAG edges. -/
def logEvaluation {d : ℕ} (gamma : Mat d) (noise : ℕ → Mat d)
    (edges : List (ℕ × ℕ)) : Option ℕ :=
  match majorityPermutation (sampleHardPermutations gamma noise 100) with
  | none => none
  | some P => countBackward (matrixRowArgmax P) edges

theorem orderingDict_getElem (o : List ℕ) (v i : ℕ)
    (h : orderingDict o v = some i) : o[i]? = some v := by
  unfold orderingDict at h
  cases hf : o.enum.reverse.find? (fun p => p.2 = v) with
  | none => rw [hf] at h; simp at h
  | some p =>
    rw [hf] at h
    simp only [Option.map_some', Option.some.injEq] at h
    have hpred : p.2 = v := by
      have := List.find?_some hf
      exact of_decide_eq_true this
    have hmem : p ∈ o.enum := List.mem_reverse.mp (List.mem_of_find?_eq_some hf)
    have hget : o[p.1]? = some p.2 := by
      have := List.mk_mem_enum_iff_getElem?.mp (show (p.1, p.2) ∈ o.enum from hmem)
      exact this
    rw [← h, hget, hpred]

theorem countBackwardAux_spec (o : List ℕ) :
    ∀ (edges : List (ℕ × ℕ)) (acc : ℕ),
      (∀ e ∈ edges, (orderingDict o e.1).isSome ∧ (orderingDict o e.2).isSome) →
      ∃ n, countBackwardAux o edges acc = some n ∧ acc ≤ n ∧
        (n = acc ↔ ∀ e ∈ edges, ∀ pu pv, orderingDict o e.1 = some pu →
          orderingDict o e.2 = some pv → ¬pv < pu) := by
  intro edges
  induction edges with
  | nil => exact fun acc _ => ⟨acc, rfl, le_refl _, by simp⟩
  | cons e rest ih =>
    intro acc h
    obtain ⟨h1, h2⟩ := h e (List.mem_cons_self _ _)
    obtain ⟨pu, hpu⟩ := Option.isSome_iff_exists.mp h1
    obtain ⟨pv, hpv⟩ := Option.isSome_iff_exists.mp h2
    have hrest := fun e' he' => h e' (List.mem_cons_of_mem _ he')
    by_cases hlt : pv < pu
    · obtain ⟨n, hn, hle, _⟩ := ih (acc + 1) hrest
      refine ⟨n, ?_, by omega, ?_⟩
      · simp only [countBackwardAux, hpu, hpv, if_pos hlt]
        exact hn
      · constructor
        · intro hna; omega
        · intro hall
          exact absurd hlt (hall e (List.mem_cons_self _ _) pu pv hpu hpv)
    · obtain ⟨n, hn, hle, hiff⟩ := ih acc hrest
      refine ⟨n, ?_, hle, ?_⟩
      · simp only [countBackwardAux, hpu, hpv, if_neg hlt]
        exact hn
      · constructor
        · intro hna e' he' pu' pv' hpu' hpv'
          rcases List.mem_cons.mp he' with he1 | he1
          · subst he1
            rw [hpu] at hpu'
            rw [hpv] at hpv'
            obtain rfl := Option.some.inj hpu'
            obtain rfl := Option.some.inj hpv'
            exact hlt
          · exact hiff.mp hna e' he1 pu' pv' hpu' hpv'
        · intro hall
          exact hiff.mpr (fun e' he' => hall e' (List.mem_cons_of_mem _ he'))

/-- C7: after every permutation-step the Trainer draws exactly 100 hard
permutation samples (see also the trace theorem for C6: an evaluation event
follows every permutation step), selects a most frequently sampled
permutation, and records its backward-edge count, where the backward count of
an ordering is the number of edges `(u, v)` with `position(u) > position(v)`;
for ordering `[0,1,2]` and edges `{(0,2),(2,1)}` the count is 1, and the
count is 0 exactly when every edge points to a strictly later position
(a valid topological ordering). -/
theorem logEvaluation_spec {d : ℕ} (gamma : Mat d) (noise : ℕ → Mat d)
    (edges : List (ℕ × ℕ)) (o : List ℕ) (P : Mat d) :
    (sampleHardPermutations gamma noise 100).length = 100 ∧
    (majorityPermutation (sampleHardPermutations gamma noise 100) = some P →
      P ∈ sampleHardPermutations gamma noise 100 ∧
      ∀ Q ∈ sampleHardPermutations gamma noise 100,
        (sampleHardPermutations gamma noise 100).count Q ≤
          (sampleHardPermutations gamma noise 100).count P) ∧
    (majorityPermutation (sampleHardPermutations gamma noise 100) = some P →
      logEvaluation gamma noise edges = countBackward (matrixRowArgmax P) edges) ∧
    countBackward [0, 1, 2] [(0, 2), (2, 1)] = some 1 ∧
    ((∀ e ∈ edges, (orderingDict o e.1).isSome ∧ (orderingDict o e.2).isSome) →
      (∀ e ∈ edges, e.1 ≠ e.2) →
      (countBackward o edges = some 0 ↔
        ∀ e ∈ edges, ∀ pu pv, orderingDict o e.1 = some pu →
          orderingDict o e.2 = some pv → pu < pv)) := by
  refine ⟨by simp [sampleHardPermutations], fun h => ?_, fun h => ?_, by decide, ?_⟩
  · refine ⟨List.dedup_subset _ (argmaxBy_mem _ _ _ h), fun Q hQ => ?_⟩
    have := argmaxBy_le _ _ _ h Q (List.mem_dedup.mpr hQ)
    exact_mod_cast this
  · unfold logEvaluation
    rw [h]
  · intro hkeys hirr
    obtain ⟨n, hn, _, hiff⟩ := countBackwardAux_spec o edges 0 hkeys
    unfold countBackward
    rw [hn]
    simp only [Option.some.injEq]
    constructor
    · intro hn0 e he pu pv hpu hpv
      have hnotlt := hiff.mp hn0 e he pu pv hpu hpv
      have hpuv : pu ≠ pv := by
        intro hEq
        apply hirr e he
        have g1 := orderingDict_getElem o e.1 pu hpu
        have g2 := orderingDict_getElem o e.2 pv hpv
        rw [hEq] at g1
        exact Option.some.inj (g1.symm.trans g2)
      omega
    · intro hall
      apply hiff.mpr
      intro e he pu pv hpu hpv
      have := hall e he pu pv hpu hpv
      omega

/-- Witness for `logEvaluation_spec` at a concrete ordering, edge set, and
one-dimensional sampler. -/
theorem logEvaluation_spec_witness :
    countBackward [0, 1, 2] [(0, 2), (2, 1)] = some 1 ∧
    (countBackward [0, 1, 2] [(0, 2), (2, 1)] = some 0 ↔
      ∀ e ∈ [((0 : ℕ), (2 : ℕ)), (2, 1)], ∀ pu pv,
        orderingDict [0, 1, 2] e.1 = some pu →
        orderingDict [0, 1, 2] e.2 = some pv → pu < pv) ∧
    (sampleHardPermutations (d := 1) (fun _ _ => 0) (fun _ => fun _ _ => 0) 100).length
      = 100 :=
  have h := logEvaluation_spec (d := 1) (fun _ _ => 0) (fun _ => fun _ _ => 0)
    [(0, 2), (2, 1)] [0, 1, 2] (fun _ _ => 1)
  ⟨h.2.2.2.1, h.2.2.2.2 (by decide) (by decide), h.1⟩

/-! ## SCM.simulate (src/ocd/data/scm/base_scm.py, lines 106-135)

Nodes are naturals; the per-node noise generator, covariate function and
intervention table are opaque callables supplied by the caller (their
parameter dictionaries are folded into them).  The two `raise Exception`
sites of `simulate` — the spec's `DataContractError` category — become the
two constructors of `SCMError`; Python `vals = {x: None for x in
self.dag.nodes}` becomes a total function into `Option`. -/

inductive SCMError where
  | noiseCountMismatch (v : ℕ) (got expected : ℕ)
  | parentNotComputed (u v : ℕ)
deriving DecidableEq, Repr

/-- Embeds the `for u in self.parents[v]` loop: collect parent value columns
in order, failing at the first parent whose value has not been assigned. -/
def collectParentValues (vals : ℕ → Option (List ℚ)) : List ℕ → Except ℕ (List (List ℚ))
  | [] => Except.ok []
  | u :: rest =>
    match vals u with
    | none => Except.error u
    | some xs =>
      match collectParentValues vals rest with
      | Except.error w => Except.error w
      | Except.ok tl => Except.ok (xs :: tl)

/-- Embeds the `for ct, v in enumerate(self.topological_order)` loop of
`SCM.simulate`: generate the node's noises, check the sample-count contract,
gather parent values, and store the node's column. -/
def simulateLoop (noiseFn : ℕ → ℕ → List ℚ)
    (funcFor : ℕ → List ℚ → List (List ℚ) → List ℚ)
    (parents : ℕ → List ℕ) (nSamples : ℕ) :
    ℕ → List ℕ → (ℕ → Option (List ℚ)) → Except SCMError (ℕ → Option (List ℚ))
  | _, [], vals => Except.ok vals
  | ct, v :: rest, vals =>
    if (noiseFn v ct).length ≠ nSamples then
      Except.error (SCMError.noiseCountMismatch v (noiseFn v ct).length nSamples)
    else
      match collectParentValues vals (parents v) with
      | Except.error u => Except.error (SCMError.parentNotComputed u v)
      | Except.ok pvals =>
        simulateLoop noiseFn funcFor parents nSamples (ct + 1) rest
          (fun w => if w = v then some (funcFor v (noiseFn v ct) pvals) else vals w)

/-- Per-node generating function: the intervention function when the node is
intervened on, else `get_covariate_from_parents` (per-node parameters folded
in). -/
def nodeFunc (getCovariateFromParents : ℕ → List ℚ → List (List ℚ) → List ℚ)
    (interventionFn : ℕ → Option (List ℚ → List (List ℚ) → List ℚ))
    (v : ℕ) : List ℚ → List (List ℚ) → List ℚ :=
  match interventionFn v with
  | some f => f
  | none => getCovariateFromParents v

/-- Embeds `SCM.simulate`: run the topological loop from empty values, then
build the dataframe with one column per DAG node. -/
def simulate (nodes topoOrder : List ℕ) (noiseFn : ℕ → ℕ → List ℚ)
    (getCovariateFromParents : ℕ → List ℚ → List (List ℚ) → List ℚ)
    (interventionFn : ℕ → Option (List ℚ → List (List ℚ) → List ℚ))
    (parents : ℕ → List ℕ) (nSamples : ℕ) :
    Except SCMError (List (ℕ × List ℚ)) :=
  match simulateLoop noiseFn (nodeFunc getCovariateFromParents interventionFn)
      parents nSamples 0 topoOrder (fun _ => none) with
  | Except.error e => Except.error e
  | Except.ok vals => Except.ok (nodes.map (fun v => (v, (vals v).getD [])))

theorem collectParentValues_ok_iff (vals : ℕ → Option (List ℚ)) (l : List ℕ) :
    (∃ pv, collectParentValues vals l = Except.ok pv) ↔
      ∀ u ∈ l, (vals u).isSome = true := by
  induction l with
  | nil => simp [collectParentValues]
  | cons u rest ih =>
    simp only [collectParentValues, List.mem_cons]
    cases hu : vals u with
    | none =>
      simp only [hu]
      constructor
      · rintro ⟨pv, hpv⟩; cases hpv
      · intro hall
        have := hall u (Or.inl rfl)
        rw [hu] at this
        cases this
    | some xs =>
      simp only [hu]
      cases hrest : collectParentValues vals rest with
      | error w =>
        constructor
        · rintro ⟨pv, hpv⟩; cases hpv
        · intro hall
          have : ∀ u ∈ rest, (vals u).isSome = true := fun u hu => hall u (Or.inr hu)
          obtain ⟨pv, hpv⟩ := ih.mpr this
          rw [hrest] at hpv
          cases hpv
      | ok tl =>
        constructor
        · intro _ w hw
          rcases hw with hw | hw
          · rw [hw, hu]; rfl
          · exact (ih.mp ⟨_, hrest⟩) w hw
        · intro _
          exact ⟨_, rfl⟩

theorem collectParentValues_error (vals : ℕ → Option (List ℚ)) (l : List ℕ) (u : ℕ)
    (h : collectParentValues vals l = Except.error u) : u ∈ l ∧ vals u = none := by
  induction l with
  | nil => cases h
  | cons w rest ih =>
    simp only [collectParentValues] at h
    cases hw : vals w with
    | none =>
      rw [hw] at h
      cases h
      exact ⟨List.mem_cons_self _ _, hw⟩
    | some xs =>
      rw [hw] at h
      cases hrest : collectParentValues vals rest with
      | error z =>
        rw [hrest] at h
        cases h
        obtain ⟨hm, hn⟩ := ih hrest
        exact ⟨List.mem_cons_of_mem _ hm, hn⟩
      | ok tl =>
        rw [hrest] at h
        cases h

theorem simulateLoop_ok_iff (noiseFn : ℕ → ℕ → List ℚ)
    (funcFor : ℕ → List ℚ → List (List ℚ) → List ℚ)
    (parents : ℕ → List ℕ) (n : ℕ) :
    ∀ (l : List ℕ) (ct : ℕ) (vals : ℕ → Option (List ℚ)),
      (∃ w, simulateLoop noiseFn funcFor parents n ct l vals = Except.ok w) ↔
        ∀ i (h : i < l.length),
          (noiseFn (l.get ⟨i, h⟩) (ct + i)).length = n ∧
          ∀ u ∈ parents (l.get ⟨i, h⟩), (vals u).isSome = true ∨ u ∈ l.take i := by
  intro l
  induction l with
  | nil =>
    intro ct vals
    simp [simulateLoop]
  | cons v rest ih =>
    intro ct vals
    simp only [simulateLoop]
    by_cases hn : (noiseFn v ct).length = n
    · rw [if_neg (not_not_intro hn)]
      cases hcp : collectParentValues vals (parents v) with
      | error u =>
        constructor
        · rintro ⟨w, hw⟩
          cases hw
        · intro hall
          obtain ⟨hmem, hnone⟩ := collectParentValues_error vals (parents v) u hcp
          rcases (hall 0 (by simp)).2 u hmem with hs | hin
          · rw [hnone] at hs
            cases hs
          · simp at hin
      | ok pvals =>
        rw [ih (ct + 1) (fun w => if w = v then some (funcFor v (noiseFn v ct) pvals)
          else vals w)]
        have hpar : ∀ u ∈ parents v, (vals u).isSome = true :=
          (collectParentValues_ok_iff vals (parents v)).mp ⟨_, hcp⟩
        constructor
        · intro hrest i h
          match i, h with
          | 0, h =>
            exact ⟨by simpa using hn, fun u hu => Or.inl (hpar u hu)⟩
          | Nat.succ i, h =>
            obtain ⟨h1, h2⟩ := hrest i (Nat.succ_lt_succ_iff.mp h)
            refine ⟨?_, ?_⟩
            · have hct : ct + (i + 1) = ct + 1 + i := by omega
              rw [hct]
              exact h1
            · intro u hu
              rcases h2 u hu with hs | hmem
              · by_cases huv : u = v
                · right
                  rw [huv]
                  exact List.mem_cons_self _ _
                · left
                  simpa [huv] using hs
              · right
                exact List.mem_cons_of_mem _ hmem
        · intro hall i h
          obtain ⟨h1, h2⟩ := hall (i + 1) (Nat.succ_lt_succ h)
          refine ⟨?_, ?_⟩
          · have hct : ct + 1 + i = ct + (i + 1) := by omega
            rw [hct]
            exact h1
          · intro u hu
            rcases h2 u hu with hs | hmem
            · left
              by_cases huv : u = v <;> simp [huv, hs]
            · rcases List.mem_cons.mp hmem with huv | hmem
              · left
                simp [huv]
              · right
                exact hmem
    · rw [if_pos hn]
      constructor
      · rintro ⟨w, hw⟩
        cases hw
      · intro hall
        exact absurd (by simpa using (hall 0 (by simp)).1) hn

theorem simulateLoop_ok_vals (noiseFn : ℕ → ℕ → List ℚ)
    (funcFor : ℕ → List ℚ → List (List ℚ) → List ℚ)
    (parents : ℕ → List ℕ) (n : ℕ) :
    ∀ (l : List ℕ) (ct : ℕ) (vals : ℕ → Option (List ℚ)) (w : ℕ → Option (List ℚ)),
      simulateLoop noiseFn funcFor parents n ct l vals = Except.ok w →
      ∀ u, w u = vals u ∨ ∃ ns ps, w u = some (funcFor u ns ps) := by
  intro l
  induction l with
  | nil =>
    intro ct vals w hw u
    cases hw
    exact Or.inl rfl
  | cons v rest ih =>
    intro ct vals w hw u
    simp only [simulateLoop] at hw
    by_cases hn : (noiseFn v ct).length = n
    · rw [if_neg (not_not_intro hn)] at hw
      cases hcp : collectParentValues vals (parents v) with
      | error z => rw [hcp] at hw; cases hw
      | ok pvals =>
        rw [hcp] at hw
        rcases ih (ct + 1) _ w hw u with h1 | h2
        · by_cases huv : u = v
          · subst huv
            right
            exact ⟨noiseFn u ct, pvals, by rw [h1]; simp⟩
          · left
            rw [h1]
            simp [huv]
        · right
          exact h2
    · rw [if_pos hn] at hw
      cases hw

theorem simulateLoop_ok_isSome (noiseFn : ℕ → ℕ → List ℚ)
    (funcFor : ℕ → List ℚ → List (List ℚ) → List ℚ)
    (parents : ℕ → List ℕ) (n : ℕ) :
    ∀ (l : List ℕ) (ct : ℕ) (vals : ℕ → Option (List ℚ)) (w : ℕ → Option (List ℚ)),
      simulateLoop noiseFn funcFor parents n ct l vals = Except.ok w →
      ∀ u, ((vals u).isSome = true ∨ u ∈ l) → (w u).isSome = true := by
  intro l
  induction l with
  | nil =>
    intro ct vals w hw u hu
    cases hw
    rcases hu with hu | hu
    · exact hu
    · simp at hu
  | cons v rest ih =>
    intro ct vals w hw u hu
    simp only [simulateLoop] at hw
    by_cases hn : (noiseFn v ct).length = n
    · rw [if_neg (not_not_intro hn)] at hw
      cases hcp : collectParentValues vals (parents v) with
      | error z => rw [hcp] at hw; cases hw
      | ok pvals =>
        rw [hcp] at hw
        rcases hu with hu | hu
        · refine ih (ct + 1) _ w hw u (Or.inl ?_)
          by_cases huv : u = v <;> simp [huv, hu]
        · rcases List.mem_cons.mp hu with huv | hu
          · refine ih (ct + 1) _ w hw u (Or.inl ?_)
            simp [huv]
          · exact ih (ct + 1) _ w hw u (Or.inr hu)
    · rw [if_pos hn] at hw
      cases hw

theorem simulateLoop_error_noise (noiseFn : ℕ → ℕ → List ℚ)
    (funcFor : ℕ → List ℚ → List (List ℚ) → List ℚ)
    (parents : ℕ → List ℕ) (n : ℕ) :
    ∀ (l : List ℕ) (ct : ℕ) (vals : ℕ → Option (List ℚ)) (v g m : ℕ),
      simulateLoop noiseFn funcFor parents n ct l vals =
        Except.error (SCMError.noiseCountMismatch v g m) →
      m = n ∧ g ≠ n ∧
        ∃ i, ∃ h : i < l.length, l.get ⟨i, h⟩ = v ∧ (noiseFn v (ct + i)).length = g := by
  intro l
  induction l with
  | nil => intro ct vals v g m hw; cases hw
  | cons x rest ih =>
    intro ct vals v g m hw
    simp only [simulateLoop] at hw
    by_cases hn : (noiseFn x ct).length = n
    · rw [if_neg (not_not_intro hn)] at hw
      cases hcp : collectParentValues vals (parents x) with
      | error z =>
        rw [hcp] at hw
        simp at hw
      | ok pvals =>
        rw [hcp] at hw
        obtain ⟨hm, hg, i, h, hget, hlen⟩ := ih (ct + 1) _ v g m hw
        refine ⟨hm, hg, i + 1, Nat.succ_lt_succ h, hget, ?_⟩
        have hct : ct + (i + 1) = ct + 1 + i := by omega
        rw [hct]
        exact hlen
    · rw [if_pos hn] at hw
      simp only [Except.error.injEq, SCMError.noiseCountMismatch.injEq] at hw
      obtain ⟨rfl, rfl, rfl⟩ := hw
      exact ⟨rfl, hn, 0, by simp, rfl, by simp⟩

theorem simulateLoop_error_parent (noiseFn : ℕ → ℕ → List ℚ)
    (funcFor : ℕ → List ℚ → List (List ℚ) → List ℚ)
    (parents : ℕ → List ℕ) (n : ℕ) :
    ∀ (l : List ℕ) (ct : ℕ) (vals : ℕ → Option (List ℚ)) (u v : ℕ),
      simulateLoop noiseFn funcFor parents n ct l vals =
        Except.error (SCMError.parentNotComputed u v) →
      ∃ i, ∃ h : i < l.length, l.get ⟨i, h⟩ = v ∧ u ∈ parents v ∧ vals u = none ∧
        u ∉ l.take i := by
  intro l
  induction l with
  | nil => intro ct vals u v hw; cases hw
  | cons x rest ih =>
    intro ct vals u v hw
    simp only [simulateLoop] at hw
    by_cases hn : (noiseFn x ct).length = n
    · rw [if_neg (not_not_intro hn)] at hw
      cases hcp : collectParentValues vals (parents x) with
      | error z =>
        rw [hcp] at hw
        simp only [Except.error.injEq, SCMError.parentNotComputed.injEq] at hw
        obtain ⟨h1, h2⟩ := hw
        obtain ⟨hmem, hnone⟩ := collectParentValues_error vals (parents x) z hcp
        refine ⟨0, by simp, h2, ?_, ?_, by simp⟩
        · rw [← h1, ← h2]
          exact hmem
        · rw [← h1]
          exact hnone
      | ok pvals =>
        rw [hcp] at hw
        obtain ⟨i, h, hget, hupar, hvnone, hnotin⟩ := ih (ct + 1) _ u v hw
        have huv : u ≠ x := by
          intro hEq
          rw [hEq] at hvnone
          simp at hvnone
        have hvals : vals u = none := by
          simpa [huv] using hvnone
        refine ⟨i + 1, Nat.succ_lt_succ h, hget, hupar, hvals, ?_⟩
        simp only [List.take_succ_cons, List.mem_cons, not_or]
        exact ⟨huv, hnotin⟩
    · rw [if_pos hn] at hw
      simp at hw

/-- C9: `SCM.simulate` succeeds exactly when the two data contracts hold —
every node's noise batch has `n_samples` values and every parent is computed
before it is referenced in topological order; each contract violation aborts
with the corresponding error and no partial result; on success (with
generating functions honouring the `n_samples` row contract and every DAG
node in the topological order) the result is a dataframe with one column per
DAG node and `n_samples` rows per column. -/
theorem simulate_contract (nodes topoOrder : List ℕ) (noiseFn : ℕ → ℕ → List ℚ)
    (getCovariateFromParents : ℕ → List ℚ → List (List ℚ) → List ℚ)
    (interventionFn : ℕ → Option (List ℚ → List (List ℚ) → List ℚ))
    (parents : ℕ → List ℕ) (n : ℕ) (u v g m : ℕ) :
    ((∃ df, simulate nodes topoOrder noiseFn getCovariateFromParents interventionFn
        parents n = Except.ok df) ↔
      ∀ i, ∀ h : i < topoOrder.length,
        (noiseFn (topoOrder.get ⟨i, h⟩) i).length = n ∧
        ∀ w ∈ parents (topoOrder.get ⟨i, h⟩), w ∈ topoOrder.take i) ∧
    ((∀ i, ∀ h : i < topoOrder.length,
        (noiseFn (topoOrder.get ⟨i, h⟩) i).length = n ∧
        ∀ w ∈ parents (topoOrder.get ⟨i, h⟩), w ∈ topoOrder.take i) →
      (∀ w ns ps, (nodeFunc getCovariateFromParents interventionFn w ns ps).length = n) →
      (∀ w ∈ nodes, w ∈ topoOrder) →
      ∃ df, simulate nodes topoOrder noiseFn getCovariateFromParents interventionFn
          parents n = Except.ok df ∧
        df.map Prod.fst = nodes ∧ ∀ p ∈ df, p.2.length = n) ∧
    (simulate nodes topoOrder noiseFn getCovariateFromParents interventionFn parents n =
        Except.error (SCMError.noiseCountMismatch v g m) →
      m = n ∧ g ≠ n ∧ ∃ i, ∃ h : i < topoOrder.length,
        topoOrder.get ⟨i, h⟩ = v ∧ (noiseFn v i).length = g) ∧
    (simulate nodes topoOrder noiseFn getCovariateFromParents interventionFn parents n =
        Except.error (SCMError.parentNotComputed u v) →
      ∃ i, ∃ h : i < topoOrder.length,
        topoOrder.get ⟨i, h⟩ = v ∧ u ∈ parents v ∧ u ∉ topoOrder.take i) := by
  have hiff := simulateLoop_ok_iff noiseFn (nodeFunc getCovariateFromParents interventionFn)
    parents n topoOrder 0 (fun _ => none)
  have hconv : (∀ i, ∀ h : i < topoOrder.length,
      (noiseFn (topoOrder.get ⟨i, h⟩) (0 + i)).length = n ∧
      ∀ w ∈ parents (topoOrder.get ⟨i, h⟩),
        (((fun _ => none) w : Option (List ℚ)).isSome = true ∨ w ∈ topoOrder.take i)) ↔
      (∀ i, ∀ h : i < topoOrder.length,
        (noiseFn (topoOrder.get ⟨i, h⟩) i).length = n ∧
        ∀ w ∈ parents (topoOrder.get ⟨i, h⟩), w ∈ topoOrder.take i) := by
    constructor
    · intro hall i h
      obtain ⟨h1, h2⟩ := hall i h
      refine ⟨by simpa using h1, fun w hw => ?_⟩
      rcases h2 w hw with hs | hs
      · simp at hs
      · exact hs
    · intro hall i h
      obtain ⟨h1, h2⟩ := hall i h
      exact ⟨by simpa using h1, fun w hw => Or.inr (h2 w hw)⟩
  refine ⟨?_, ?_, ?_, ?_⟩
  · constructor
    · rintro ⟨df, hdf⟩
      unfold simulate at hdf
      cases hloop : simulateLoop noiseFn (nodeFunc getCovariateFromParents interventionFn)
          parents n 0 topoOrder (fun _ => none) with
      | error e => rw [hloop] at hdf; cases hdf
      | ok w => exact hconv.mp (hiff.mp ⟨w, hloop⟩)
    · intro hall
      obtain ⟨w, hloop⟩ := hiff.mpr (hconv.mpr hall)
      refine ⟨nodes.map (fun x => (x, (w x).getD [])), ?_⟩
      unfold simulate
      rw [hloop]
  · intro hall hcov hnodes
    obtain ⟨w, hloop⟩ := hiff.mpr (hconv.mpr hall)
    refine ⟨nodes.map (fun x => (x, (w x).getD [])), ?_, ?_, ?_⟩
    · unfold simulate
      rw [hloop]
    · rw [List.map_map]
      exact List.map_id nodes
    · intro p hp
      obtain ⟨x, hx, rfl⟩ := List.mem_map.mp hp
      have hsome := simulateLoop_ok_isSome noiseFn _ parents n topoOrder 0 _ w hloop x
        (Or.inr (hnodes x hx))
      rcases simulateLoop_ok_vals noiseFn _ parents n topoOrder 0 _ w hloop x with h1 | h2
      · rw [h1] at hsome
        simp at hsome
      · obtain ⟨ns, ps, hx2⟩ := h2
        simp only [hx2, Option.getD_some]
        exact hcov x ns ps
  · intro herr
    unfold simulate at herr
    cases hloop : simulateLoop noiseFn (nodeFunc getCovariateFromParents interventionFn)
        parents n 0 topoOrder (fun _ => none) with
    | error e =>
      rw [hloop] at herr
      obtain rfl := Except.error.inj herr
      obtain ⟨hm, hg, i, h, hget, hlen⟩ :=
        simulateLoop_error_noise noiseFn _ parents n topoOrder 0 _ v g m hloop
      exact ⟨hm, hg, i, h, hget, by simpa using hlen⟩
    | ok w => rw [hloop] at herr; cases herr
  · intro herr
    unfold simulate at herr
    cases hloop : simulateLoop noiseFn (nodeFunc getCovariateFromParents interventionFn)
        parents n 0 topoOrder (fun _ => none) with
    | error e =>
      rw [hloop] at herr
      obtain rfl := Except.error.inj herr
      obtain ⟨i, h, hget, hpar, _, hnotin⟩ :=
        simulateLoop_error_parent noiseFn _ parents n topoOrder 0 _ u v hloop
      exact ⟨i, h, hget, hpar, hnotin⟩
    | ok w => rw [hloop] at herr; cases herr

/-- Witness for `simulate_contract`: the chain SCM `0 → 1` with two samples
per batch simulates successfully into a two-column, two-row dataframe. -/
theorem simulate_contract_witness :
    ∃ df, simulate [0, 1] [0, 1] (fun _ _ => [0, 0]) (fun _ _ _ => [1, 1])
        (fun _ => none) (fun w => if w = 1 then [0] else []) 2 = Except.ok df ∧
      df.map Prod.fst = [0, 1] ∧ ∀ p ∈ df, p.2.length = 2 :=
  (simulate_contract [0, 1] [0, 1] (fun _ _ => [0, 0]) (fun _ _ _ => [1, 1])
      (fun _ => none) (fun w => if w = 1 then [0] else []) 2 0 0 0 0).2.1
    (by
      intro i h
      match i, h with
      | 0, h =>
        refine ⟨rfl, ?_⟩
        show ∀ w ∈ (if (0 : ℕ) = 1 then [0] else ([] : List ℕ)), w ∈ List.take 0 [0, 1]
        decide
      | 1, h =>
        refine ⟨rfl, ?_⟩
        show ∀ w ∈ (if (1 : ℕ) = 1 then [0] else ([] : List ℕ)), w ∈ List.take 1 [0, 1]
        decide)
    (fun w ns ps => rfl)
    (by decide)

end OCD
